import Mathlib

/-!
# Verification of the identity-resolution + aggregation + join pipeline

This file gives a shallow embedding of the core pipeline of the repository
(`pipeline/merge_judging.py`, with `pipeline/compare_rankings.py` duplicating
the same functions) and proves the specified properties about it.

Modelling conventions:
* Python `dict[str, T]` values are modelled as association lists
  `List (String × T)` (Python dicts preserve insertion order, which the
  association list mirrors); `dict.get(k, default)` is
  `(List.lookup k d).getD default`.
* The union-find `parent` dict of `build_canonical_map` has a fixed key set
  (exactly the input identifier set: keys are created only by the initial
  comprehension and assignments only overwrite existing keys), so it is
  modelled as a total function `String → String` together with an explicit
  membership check on every read; a read of a key outside the identifier set
  is a Python `KeyError` and is modelled as `none`.
* The `rank` dict is only ever read through `rank.get(root, 0)`, so it is
  modelled as a total function `String → Nat` that is `0` outside the
  written keys.
* The two `while` loops of `find` are modelled with explicit fuel
  `ids.length + 1`; running out of fuel (which would mean the Python loop
  does not terminate) also yields `none`.  Thus `none` models "the Python
  function does not return a mapping" (either by raising or by looping).
* Python `float` scores are modelled as `ℚ`; `np.mean` is sum / length.
* Python `str.strip()` is modelled as `strip` (drop whitespace from both
  ends of the character list), and the truthiness test `if s:` on a string
  as `s ≠ ""`.
-/

namespace CapableExp

/-- One step of dict update `d[k] = v` on an association list: overwrite in
place if the key exists, otherwise append at the end (Python dict
insertion-order semantics). -/
def setKey {β : Type} (d : List (String × β)) (k : String) (v : β) : List (String × β) :=
  match d with
  | [] => [(k, v)]
  | (k', v') :: rest => if k' = k then (k', v) :: rest else (k', v') :: setKey rest k v

/-- `defaultdict(list)`-style `d[k].append(v)`. -/
def addToGroup {β : Type} (d : List (String × List β)) (k : String) (v : β) :
    List (String × List β) :=
  match d with
  | [] => [(k, [v])]
  | (k', vs) :: rest =>
    if k' = k then (k', vs ++ [v]) :: rest else (k', vs) :: addToGroup rest k v

/-- `defaultdict(int)`-style `d[k] += 1`. -/
def bump (d : List (String × Nat)) (k : String) : List (String × Nat) :=
  match d with
  | [] => [(k, 1)]
  | (k', n) :: rest => if k' = k then (k', n + 1) :: rest else (k', n) :: bump rest k

/-- Python `str.strip()`: remove whitespace from both ends. -/
def strip (s : String) : String :=
  ⟨((s.data.dropWhile Char.isWhitespace).reverse.dropWhile Char.isWhitespace).reverse⟩

/-- Pointwise dict update `d[k] = v` for the function-modelled dicts
(`parent`, `rank`): a plain if-then-else so that concrete computations
reduce. -/
def fupd {β : Type} (f : String → β) (a : String) (v : β) : String → β :=
  fun x => if x = a then v else f x

/-- State of the union-find of `build_canonical_map`: the `parent` dict
(total function, key set = the identifier list) and the `rank` dict
(read only through `rank.get(·, 0)`). -/
structure UFState where
  parent : String → String
  rank : String → Nat

/-- First `while` loop of `find`: follow parent pointers to the root.
`none` models a `KeyError` (value outside the dict's key set) or a
non-terminating loop (fuel exhausted). -/
def pRoot (ids : List String) (parent : String → String) : Nat → String → Option String
  | 0, _ => none
  | fuel + 1, value =>
    if value ∈ ids then
      if parent value = value then some value else pRoot ids parent fuel (parent value)
    else none

/-- Second `while` loop of `find`: path compression.  Each visited node's
parent pointer is rewritten to `root`; the traversal follows the parent
pointer read *before* the write, exactly as the Python code does. -/
def compress (ids : List String) (root : String) :
    Nat → (String → String) → String → Option (String → String)
  | 0, _, _ => none
  | fuel + 1, parent, value =>
    if value ∈ ids then
      if parent value = value then some parent
      else compress ids root fuel (fupd parent value root) (parent value)
    else none

/-- `find(value)`: locate the root, then compress the path to it. -/
def ufFind (ids : List String) (st : UFState) (value : String) :
    Option (String × UFState) :=
  match pRoot ids st.parent (ids.length + 1) value with
  | none => none
  | some root =>
    match compress ids root (ids.length + 1) st.parent value with
    | none => none
    | some parent' => some (root, { st with parent := parent' })

/-- `union(a, b)`: union by rank of the two roots. -/
def ufUnion (ids : List String) (st : UFState) (a b : String) : Option UFState :=
  match ufFind ids st a with
  | none => none
  | some (root_a, st1) =>
    match ufFind ids st1 b with
    | none => none
    | some (root_b, st2) =>
      if root_a = root_b then some st2
      else
        let rank_a := st2.rank root_a
        let rank_b := st2.rank root_b
        if rank_a < rank_b then
          some { st2 with parent := fupd st2.parent root_a root_b }
        else if rank_b < rank_a then
          some { st2 with parent := fupd st2.parent root_b root_a }
        else
          some { parent := fupd st2.parent root_b root_a,
                 rank := fupd st2.rank root_a (rank_a + 1) }

/-- `for left, right in edges: union(left, right)`. -/
def processEdges (ids : List String) :
    UFState → List (String × String) → Option UFState
  | st, [] => some st
  | st, (l, r) :: es =>
    match ufUnion ids st l r with
    | none => none
    | some st' => processEdges ids st' es

/-- `for seq in sequences: components[find(seq)].append(seq)`. -/
def buildComponents (ids : List String) :
    UFState → List String → List (String × List String) →
      Option (UFState × List (String × List String))
  | st, [], comps => some (st, comps)
  | st, s :: rest, comps =>
    match ufFind ids st s with
    | none => none
    | some (root, st') => buildComponents ids st' rest (addToGroup comps root s)

/-- Decidability of `≤` on strings through the character lists, which (unlike
the byte-iterator comparison `String.ltb`) evaluates by kernel reduction. -/
def strLeDec : DecidableRel (fun a b : String => a ≤ b) := fun a b =>
  decidable_of_iff (¬b.data < a.data) (not_congr String.lt_iff_toList_lt).symm

/-- `sorted(xs)[0]`; `none` models the `IndexError` on an empty list. -/
def sortedHead (xs : List String) : Option String :=
  (@List.insertionSort String (fun a b => a ≤ b) strLeDec xs).head?

/-- The loop computing `canonical_by_root`: per component, the candidates are
the members that are not a `left` of any edge, falling back to all members;
the canonical member is `sorted(candidates)[0]`. -/
def canonicalByRoot (removed_sources : List String) :
    List (String × List String) → Option (List (String × String))
  | [] => some []
  | (root, members) :: rest =>
    let candidates := members.filter (fun s => s ∉ removed_sources)
    let candidates := if candidates = [] then members else candidates
    match sortedHead candidates with
    | none => none
    | some c =>
      match canonicalByRoot removed_sources rest with
      | none => none
      | some m => some ((root, c) :: m)

/-- The final comprehension `{seq: canonical_by_root[find(seq)] for seq in
sequences}` (each `find` keeps mutating the parent dict). -/
def finalMap (ids : List String) (cbr : List (String × String)) :
    UFState → List String → Option (List (String × String))
  | _, [] => some []
  | st, s :: rest =>
    match ufFind ids st s with
    | none => none
    | some (root, st') =>
      match List.lookup root cbr with
      | none => none
      | some c =>
        match finalMap ids cbr st' rest with
        | none => none
        | some m => some ((s, c) :: m)

/-- `build_canonical_map(sequences, edges)` from `pipeline/merge_judging.py`
(identically duplicated in `pipeline/compare_rankings.py`).  `none` models
the Python function raising (or looping) instead of returning a dict. -/
def build_canonical_map (ids : List String) (edges : List (String × String)) :
    Option (List (String × String)) :=
  match processEdges ids { parent := fun s => s, rank := fun _ => 0 } edges with
  | none => none
  | some st =>
    match buildComponents ids st ids [] with
    | none => none
    | some (st', comps) =>
      match canonicalByRoot (edges.map Prod.fst) comps with
      | none => none
      | some cbr => finalMap ids cbr st' ids

end CapableExp

namespace CapableExp

/-! ## Specification-side notions used to state the properties -/

/-- Two identifiers are linked when they are connected (directly or
transitively, in either direction) by the merge edges. -/
def Linked (edges : List (String × String)) (x y : String) : Prop :=
  Relation.EqvGen (fun u v => (u, v) ∈ edges) x y

/-- The set of identifiers that appear as the `child` (first component,
`left`) of some edge — the `removed_sources` of the code. -/
def childList (edges : List (String × String)) : List String :=
  edges.map Prod.fst

/-- All edge endpoints belong to the identifier list (the callers
`read_rankings` guarantee this by adding both endpoints to `sequences`). -/
abbrev EdgesCovered (ids : List String) (edges : List (String × String)) : Prop :=
  ∀ e ∈ edges, e.1 ∈ ids ∧ e.2 ∈ ids

/-- Iterated parent pointer: `pIter parent n x` follows `n` parent links
from `x`. -/
def pIter (parent : String → String) : Nat → String → String
  | 0, x => x
  | n + 1, x => pIter parent n (parent x)

/-- `r` is the root of `x` in the parent forest: some number of parent links
leads from `x` to `r`, and `r` is a fixed point. -/
def Root (parent : String → String) (x r : String) : Prop :=
  (∃ n, pIter parent n x = r) ∧ parent r = r

/-- `x` and `y` have the same root. -/
def EqClass (parent : String → String) (x y : String) : Prop :=
  ∃ r, Root parent x r ∧ Root parent y r

/-- The parent function is a forest over `ids`, witnessed by a height
function that strictly decreases along non-trivial parent links. -/
def ForestW (ids : List String) (parent : String → String) (ht : String → Nat) : Prop :=
  ∀ x ∈ ids, parent x ∈ ids ∧ (parent x ≠ x → ht (parent x) < ht x)

/-- Outside the dict's key set the parent function is untouched (it stays
the identity it was initialised with). -/
def OutsideId (ids : List String) (parent : String → String) : Prop :=
  ∀ z, z ∉ ids → parent z = z

/-- Number of identifiers strictly below `x` in the height order; the
termination measure for following parent links. -/
def fmeasure (ids : List String) (ht : String → Nat) (x : String) : ℕ :=
  (ids.toFinset.filter (fun y => ht y < ht x)).card

/-! ## Score aggregation (`build_canonical_avg` and the combined step of
`main`) -/

/-- One entry dict appended by `read_rankings`: sequence, Elo score, invalid
flag, and the `removed_for` annotation (`supersededBy`; the empty string
means "not set", matching Python string truthiness). -/
structure Entry where
  seq : String
  elo : ℚ
  invalid : Bool
  removed_for : String
deriving DecidableEq, Repr

/-- `float(np.mean(xs))` on a list of scores. -/
def mean (xs : List ℚ) : ℚ := xs.sum / xs.length

/-- `build_canonical_avg(entries, canonical_map, invalid_canon)` from
`pipeline/merge_judging.py` (named `canonical_avg` in
`pipeline/compare_rankings.py`, with identical body). -/
def build_canonical_avg (entries : List Entry) (canonical_map : List (String × String))
    (invalid_canon : List String) : List (String × ℚ) :=
  let canonical_elos := entries.foldl
    (fun acc entry =>
      if entry.invalid then acc
      else if entry.removed_for ≠ "" then acc
      else
        let seq := strip entry.seq
        if seq = "" then acc
        else
          let canonical := (List.lookup seq canonical_map).getD seq
          if canonical ∈ invalid_canon then acc
          else addToGroup acc canonical entry.elo)
    []
  (canonical_elos.filter (fun g => ¬g.2 = [])).map (fun g => (g.1, mean g.2))

/-- `invalid_canon = {canonical_map.get(seq, seq) for seq in invalid_set}`
(line 238 of `pipeline/merge_judging.py`); a list with the same membership
as the Python set. -/
def invalid_canon_of (canonical_map : List (String × String))
    (invalid_set : List String) : List String :=
  invalid_set.map (fun s => (List.lookup s canonical_map).getD s)

/-- The combined-average step of `main` (lines 244–248 of
`pipeline/merge_judging.py`): collect each canonical id's per-source means
across the per-judge average maps, then take their mean. -/
def combined_avg (per_judge_avg : List (String × List (String × ℚ))) :
    List (String × ℚ) :=
  let combined_elos := per_judge_avg.foldl
    (fun acc p => p.2.foldl (fun acc2 q => addToGroup acc2 q.1 q.2) acc) []
  (combined_elos.filter (fun g => ¬g.2 = [])).map (fun g => (g.1, mean g.2))

/-! ## Cross-reference joiner (`build_plot_data`) -/

/-- The `diagnostics` dict returned by `build_plot_data`. -/
structure PlotDiagnostics where
  numeric_rows : Nat
  numeric_peptides : Nat
  numeric_with_elo : Nat
  missing_total : Nat
  missing_examples : List (String × String)
  missing_by_canonical : List (String × Nat)
deriving DecidableEq, Repr

/-- Accumulator state of the `build_plot_data` loop. -/
structure PlotState where
  n_results_values : List Int
  avg_elos : List ℚ
  baseline_seqs : List (String × ℚ)
  numeric_rows : Nat
  numeric_peptides : Nat
  numeric_with_elo : Nat
  missing_total : Nat
  missing_examples : List (String × String)
  missing_by_canonical : List (String × Nat)
deriving DecidableEq, Repr

/-- The empty initial accumulator of `build_plot_data`. -/
def initialPlotState : PlotState :=
  { n_results_values := [], avg_elos := [], baseline_seqs := []
    numeric_rows := 0, numeric_peptides := 0, numeric_with_elo := 0
    missing_total := 0, missing_examples := [], missing_by_canonical := [] }

/-- The body of the `for peptide, n_results in rows:` loop of
`build_plot_data`. -/
def plotStep (canonical_map : List (String × String)) (invalid_canon : List String)
    (avg_map : List (String × ℚ)) (track_missing : Bool)
    (st : PlotState) (row : String × Option Int) : PlotState :=
  let peptide := row.1
  let n_results := row.2
  if peptide = "" then st
  else
    let st := if n_results.isSome then { st with numeric_rows := st.numeric_rows + 1 } else st
    let canonical := (List.lookup peptide canonical_map).getD peptide
    if canonical ∈ invalid_canon then st
    else
      let st := if n_results.isSome then
          { st with numeric_peptides := st.numeric_peptides + 1 } else st
      match List.lookup canonical avg_map with
      | none =>
        let st := { st with missing_total := st.missing_total + 1 }
        if track_missing then
          let st := { st with
            missing_by_canonical := bump st.missing_by_canonical canonical }
          if st.missing_examples.length < 10 then
            { st with missing_examples := st.missing_examples ++ [(peptide, canonical)] }
          else st
        else st
      | some avg_elo =>
        match n_results with
        | none => { st with baseline_seqs := setKey st.baseline_seqs canonical avg_elo }
        | some n =>
          { st with n_results_values := st.n_results_values ++ [n]
                    avg_elos := st.avg_elos ++ [avg_elo]
                    numeric_with_elo := st.numeric_with_elo + 1 }

/-- `build_plot_data(rows, canonical_map, invalid_canon, avg_map,
track_missing)` from `pipeline/merge_judging.py`.  It is total: every dict
access in the source uses a default (`dict.get`) or a `defaultdict`, so no
lookup can raise. -/
def build_plot_data (rows : List (String × Option Int))
    (canonical_map : List (String × String)) (invalid_canon : List String)
    (avg_map : List (String × ℚ)) (track_missing : Bool) :
    List Int × List ℚ × List (String × ℚ) × PlotDiagnostics :=
  let st := rows.foldl (plotStep canonical_map invalid_canon avg_map track_missing)
    initialPlotState
  (st.n_results_values, st.avg_elos, st.baseline_seqs,
    { numeric_rows := st.numeric_rows
      numeric_peptides := st.numeric_peptides
      numeric_with_elo := st.numeric_with_elo
      missing_total := st.missing_total
      missing_examples := st.missing_examples
      missing_by_canonical := st.missing_by_canonical })

end CapableExp

namespace CapableExp

/-! ## Basic facts about parent-pointer iteration and roots -/

lemma fupd_same {β : Type} (f : String → β) (a : String) (v : β) : fupd f a v a = v := by
  simp [fupd]

lemma fupd_noteq {β : Type} {x a : String} (h : x ≠ a) (f : String → β) (v : β) :
    fupd f a v x = f x := by
  simp [fupd, h]

lemma pIter_succ_right (parent : String → String) (n : Nat) (x : String) :
    pIter parent (n + 1) x = parent (pIter parent n x) := by
  induction n generalizing x with
  | zero => rfl
  | succ n ih =>
    show pIter parent (n + 1) (parent x) = _
    rw [ih (parent x)]
    rfl

lemma pIter_add (parent : String → String) (m n : Nat) (x : String) :
    pIter parent (m + n) x = pIter parent n (pIter parent m x) := by
  induction m generalizing x with
  | zero => rw [Nat.zero_add]; rfl
  | succ m ih => rw [Nat.succ_add]; exact ih (parent x)

lemma pIter_fix {parent : String → String} {r : String} (hr : parent r = r)
    (n : Nat) : pIter parent n r = r := by
  induction n with
  | zero => rfl
  | succ n ih => rw [pIter_succ_right, ih, hr]

lemma Root_unique {parent : String → String} {x r₁ r₂ : String}
    (h₁ : Root parent x r₁) (h₂ : Root parent x r₂) : r₁ = r₂ := by
  obtain ⟨⟨n, hn⟩, hfix₁⟩ := h₁
  obtain ⟨⟨m, hm⟩, hfix₂⟩ := h₂
  rcases Nat.le_total n m with hle | hle
  · obtain ⟨k, rfl⟩ := Nat.exists_eq_add_of_le hle
    rw [pIter_add, hn, pIter_fix hfix₁] at hm
    exact hm
  · obtain ⟨k, rfl⟩ := Nat.exists_eq_add_of_le hle
    rw [pIter_add, hm, pIter_fix hfix₂] at hn
    exact hn.symm

lemma Root_of_parent {parent : String → String} {x r : String}
    (h : Root parent (parent x) r) : Root parent x r := by
  obtain ⟨⟨n, hn⟩, hfix⟩ := h
  exact ⟨⟨n + 1, hn⟩, hfix⟩

lemma Root_parent_of_ne {parent : String → String} {x r : String}
    (h : Root parent x r) (hx : parent x ≠ x) : Root parent (parent x) r := by
  obtain ⟨⟨n, hn⟩, hfix⟩ := h
  cases n with
  | zero =>
    have hxr : x = r := hn
    subst hxr
    exact absurd hfix hx
  | succ n => exact ⟨⟨n, hn⟩, hfix⟩

lemma Root_self_of_fix {parent : String → String} {x : String}
    (hx : parent x = x) : Root parent x x := ⟨⟨0, rfl⟩, hx⟩

lemma Root_fix_iff {parent : String → String} {x r : String}
    (hx : parent x = x) : Root parent x r ↔ r = x :=
  ⟨fun h => Root_unique h (Root_self_of_fix hx), fun h => by subst h; exact Root_self_of_fix hx⟩

lemma pIter_mem {ids : List String} {parent : String → String} {ht : String → Nat}
    (hf : ForestW ids parent ht) {x : String} (hx : x ∈ ids) (n : Nat) :
    pIter parent n x ∈ ids := by
  induction n generalizing x with
  | zero => exact hx
  | succ n ih => exact ih ((hf x hx).1)

lemma Root_mem {ids : List String} {parent : String → String} {ht : String → Nat}
    (hf : ForestW ids parent ht) {x r : String} (hx : x ∈ ids)
    (h : Root parent x r) : r ∈ ids := by
  obtain ⟨⟨n, hn⟩, -⟩ := h
  exact hn ▸ pIter_mem hf hx n

lemma h_pIter {ids : List String} {parent : String → String} {ht : String → Nat}
    (hf : ForestW ids parent ht) {x : String} (hx : x ∈ ids) (n : Nat) :
    ht (pIter parent n x) ≤ ht x ∧ (pIter parent n x ≠ x → ht (pIter parent n x) < ht x) := by
  induction n with
  | zero => exact ⟨le_refl _, fun h => absurd rfl h⟩
  | succ n ih =>
    rw [pIter_succ_right]
    set y := pIter parent n x with hy
    have hymem : y ∈ ids := pIter_mem hf hx n
    by_cases hpy : parent y = y
    · rw [hpy]; exact ih
    · have hlt : ht (parent y) < ht y := (hf y hymem).2 hpy
      have : ht (parent y) < ht x := lt_of_lt_of_le hlt ih.1
      exact ⟨le_of_lt this, fun _ => this⟩

lemma Root_h_lt {ids : List String} {parent : String → String} {ht : String → Nat}
    (hf : ForestW ids parent ht) {v r : String} (hv : v ∈ ids)
    (h : Root parent v r) (hne : r ≠ v) : ht r < ht v := by
  obtain ⟨⟨n, hn⟩, -⟩ := h
  subst hn
  exact (h_pIter hf hv n).2 hne

lemma fmeasure_lt {ids : List String} {parent : String → String} {ht : String → Nat}
    (hf : ForestW ids parent ht) {x : String} (hx : x ∈ ids) (hne : parent x ≠ x) :
    fmeasure ids ht (parent x) < fmeasure ids ht x := by
  have hpx : parent x ∈ ids := (hf x hx).1
  have hlt : ht (parent x) < ht x := (hf x hx).2 hne
  apply Finset.card_lt_card
  rw [Finset.ssubset_iff_of_subset]
  · exact ⟨parent x, Finset.mem_filter.2 ⟨List.mem_toFinset.2 hpx, hlt⟩,
      fun hmem => absurd (Finset.mem_filter.1 hmem).2 (lt_irrefl _)⟩
  · intro y hy
    obtain ⟨hy₁, hy₂⟩ := Finset.mem_filter.1 hy
    exact Finset.mem_filter.2 ⟨hy₁, lt_trans hy₂ hlt⟩

lemma fmeasure_le (ids : List String) (ht : String → Nat) (x : String) :
    fmeasure ids ht x ≤ ids.length :=
  le_trans (Finset.card_filter_le _ _) (List.toFinset_card_le ids)

lemma pRoot_some {ids : List String} {parent : String → String} {ht : String → Nat}
    (hf : ForestW ids parent ht) :
    ∀ (fuel : Nat) (x : String), x ∈ ids → fmeasure ids ht x < fuel →
      ∃ r, pRoot ids parent fuel x = some r ∧ Root parent x r := by
  intro fuel
  induction fuel with
  | zero => intro x _ hlt; omega
  | succ fuel ih =>
    intro x hx hlt
    by_cases hpx : parent x = x
    · exact ⟨x, by simp [pRoot, hx, hpx], Root_self_of_fix hpx⟩
    · have hm : fmeasure ids ht (parent x) < fuel :=
        lt_of_lt_of_le (fmeasure_lt hf hx hpx) (Nat.lt_succ_iff.1 hlt)
      obtain ⟨r, hr, hroot⟩ := ih (parent x) ((hf x hx).1) hm
      exact ⟨r, by simp [pRoot, hx, hpx, hr], Root_of_parent hroot⟩

lemma pRoot_ok {ids : List String} {parent : String → String} {ht : String → Nat}
    (hf : ForestW ids parent ht) {x : String} (hx : x ∈ ids) :
    ∃ r, pRoot ids parent (ids.length + 1) x = some r ∧ Root parent x r ∧ r ∈ ids := by
  obtain ⟨r, h₁, h₂⟩ := pRoot_some hf (ids.length + 1) x hx
    (Nat.lt_succ_of_le (fmeasure_le ids ht x))
  exact ⟨r, h₁, h₂, Root_mem hf hx h₂⟩

end CapableExp

namespace CapableExp

/-! ## Path compression preserves the forest structure and every root -/

lemma update_forest {ids : List String} {parent : String → String} {ht : String → Nat}
    (hf : ForestW ids parent ht) {v r : String} (hv : v ∈ ids)
    (hroot : Root parent v r) : ForestW ids (fupd parent v r) ht := by
  intro x hx
  by_cases hxv : x = v
  · subst hxv
    rw [fupd_same]
    exact ⟨Root_mem hf hx hroot, fun hne => Root_h_lt hf hx hroot hne⟩
  · rw [fupd_noteq hxv]
    exact hf x hx

lemma Root_update_of_Root {parent : String → String} {v r : String}
    (hroot : Root parent v r) :
    ∀ {y s : String}, Root parent y s → Root (fupd parent v r) y s := by
  intro y s h
  obtain ⟨⟨n, hn⟩, hs⟩ := h
  induction n generalizing y with
  | zero =>
    have hys : y = s := hn
    by_cases hsv : s = v
    · have hrs : r = s := by
        apply Root_unique hroot
        rw [hsv] at hs ⊢
        exact Root_self_of_fix hs
      have hfix : fupd parent v r s = s := by
        rw [hsv, fupd_same, hrs, hsv]
      rw [hys]
      exact Root_self_of_fix hfix
    · have hfix : fupd parent v r s = s := by
        rw [fupd_noteq hsv]; exact hs
      rw [hys]
      exact Root_self_of_fix hfix
  | succ n ih =>
    by_cases hyv : y = v
    · have hsr : s = r := Root_unique ⟨⟨n + 1, hn⟩, hs⟩ (hyv ▸ hroot)
      have hstep : fupd parent v r y = r := by
        rw [hyv, fupd_same]
      have hfixr : fupd parent v r r = r := by
        by_cases hrv : r = v
        · rw [hrv, fupd_same]
        · rw [fupd_noteq hrv]; exact hroot.2
      refine ⟨⟨1, ?_⟩, by rw [hsr]; exact hfixr⟩
      show fupd parent v r y = s
      rw [hstep, hsr]
    · have hn' : pIter parent n (parent y) = s := hn
      have hrec := ih hn'
      have hupd : fupd parent v r y = parent y := fupd_noteq hyv parent r
      exact Root_of_parent (by rw [hupd]; exact hrec)

lemma Root_of_update_Root {parent : String → String} {v r : String}
    (hroot : Root parent v r) :
    ∀ {y s : String}, Root (fupd parent v r) y s → Root parent y s := by
  intro y s h
  obtain ⟨⟨n, hn⟩, hs⟩ := h
  induction n generalizing y with
  | zero =>
    have hys : y = s := hn
    have hps : parent s = s := by
      by_cases hsv : s = v
      · have hrs : r = s := by rw [hsv] at hs; rw [← fupd_same parent v r, hs, hsv]
        rw [← hrs]
        exact hroot.2
      · rw [fupd_noteq hsv parent r] at hs
        exact hs
    exact ⟨⟨0, hys⟩, hps⟩
  | succ n ih =>
    by_cases hyv : y = v
    · have hstep : fupd parent v r y = r := by rw [hyv, fupd_same]
      have hn' : pIter (fupd parent v r) n r = s := by
        have hh : pIter (fupd parent v r) n (fupd parent v r y) = s := hn
        rwa [hstep] at hh
      have hfixr : fupd parent v r r = r := by
        by_cases hrv : r = v
        · rw [hrv, fupd_same]
        · rw [fupd_noteq hrv]; exact hroot.2
      have hsr : s = r := by rw [← hn']; exact pIter_fix hfixr n
      rw [hyv, hsr]
      exact hroot
    · have hstep : fupd parent v r y = parent y := fupd_noteq hyv parent r
      have hn' : pIter (fupd parent v r) n (parent y) = s := by
        have hh : pIter (fupd parent v r) n (fupd parent v r y) = s := hn
        rwa [hstep] at hh
      exact Root_of_parent (ih hn')

lemma update_root_iff {parent : String → String} {v r : String}
    (hroot : Root parent v r) (y s : String) :
    Root (fupd parent v r) y s ↔ Root parent y s :=
  ⟨Root_of_update_Root hroot, Root_update_of_Root hroot⟩

end CapableExp

namespace CapableExp

lemma compress_some {ids : List String} {ht : String → Nat} (r : String) :
    ∀ (fuel : Nat) (parent : String → String) (v : String),
      ForestW ids parent ht → v ∈ ids → Root parent v r →
      fmeasure ids ht v < fuel →
      ∃ parent', compress ids r fuel parent v = some parent' ∧
        ForestW ids parent' ht ∧
        (∀ y s, Root parent' y s ↔ Root parent y s) ∧
        (∀ z, z ∉ ids → parent' z = parent z) := by
  intro fuel
  induction fuel with
  | zero => intro parent v _ _ _ hlt; omega
  | succ fuel ih =>
    intro parent v hf hv hroot hlt
    by_cases hpv : parent v = v
    · exact ⟨parent, by simp [compress, hv, hpv], hf, fun y s => Iff.rfl, fun z _ => rfl⟩
    · have hf₁ : ForestW ids (fupd parent v r) ht := update_forest hf hv hroot
      have hiff := update_root_iff hroot
      have hnextmem : parent v ∈ ids := (hf v hv).1
      have hroot₁ : Root (fupd parent v r) (parent v) r :=
        (hiff (parent v) r).2 (Root_parent_of_ne hroot hpv)
      have hm : fmeasure ids ht (parent v) < fuel :=
        lt_of_lt_of_le (fmeasure_lt hf hv hpv) (Nat.lt_succ_iff.1 hlt)
      obtain ⟨parent', hcomp, hf', hiff', hout'⟩ :=
        ih (fupd parent v r) (parent v) hf₁ hnextmem hroot₁ hm
      refine ⟨parent', ?_, hf', fun y s => (hiff' y s).trans (hiff y s), ?_⟩
      · simp [compress, hv, hpv, hcomp]
      · intro z hz
        have hzv : z ≠ v := fun hzv => hz (by rw [hzv]; exact hv)
        rw [hout' z hz, fupd_noteq hzv]

lemma ufFind_some {ids : List String} {ht : String → Nat} {st : UFState}
    (hf : ForestW ids st.parent ht) {x : String} (hx : x ∈ ids) :
    ∃ r st', ufFind ids st x = some (r, st') ∧ Root st.parent x r ∧ r ∈ ids ∧
      st'.rank = st.rank ∧ ForestW ids st'.parent ht ∧
      (∀ y s, Root st'.parent y s ↔ Root st.parent y s) ∧
      (∀ z, z ∉ ids → st'.parent z = st.parent z) := by
  obtain ⟨r, hpr, hroot, hrmem⟩ := pRoot_ok hf hx
  obtain ⟨parent', hcomp, hf', hiff', hout'⟩ :=
    compress_some r (ids.length + 1) st.parent x hf hx hroot
      (Nat.lt_succ_of_le (fmeasure_le ids ht x))
  exact ⟨r, { st with parent := parent' }, by simp [ufFind, hpr, hcomp], hroot, hrmem,
    rfl, hf', hiff', hout'⟩

end CapableExp

namespace CapableExp

/-! ## Linking two roots: effect of `parent[root_a] = root_b` -/

lemma EqClass_symm {parent : String → String} {x y : String}
    (h : EqClass parent x y) : EqClass parent y x := by
  obtain ⟨r, hx, hy⟩ := h
  exact ⟨r, hy, hx⟩

lemma EqClass_trans {parent : String → String} {x y z : String}
    (h₁ : EqClass parent x y) (h₂ : EqClass parent y z) : EqClass parent x z := by
  obtain ⟨r, hx, hy⟩ := h₁
  obtain ⟨r', hy', hz⟩ := h₂
  rw [Root_unique hy' hy] at hz
  exact ⟨r, hx, hz⟩

lemma EqClass_iff_root {parent : String → String} {a ra : String}
    (hra : Root parent a ra) (x : String) : EqClass parent x a ↔ Root parent x ra := by
  constructor
  · rintro ⟨t, hxt, hat⟩
    rw [← Root_unique hat hra]
    exact hxt
  · intro h
    exact ⟨ra, h, hra⟩

lemma link_root_forward {parent : String → String} {r1 r2 : String}
    (hfix1 : parent r1 = r1) (hfix2 : parent r2 = r2) (hne : r1 ≠ r2) :
    ∀ (n : Nat) (y s : String), pIter (fupd parent r1 r2) n y = s →
      fupd parent r1 r2 s = s →
      ((Root parent y r1 ∧ s = r2) ∨ (¬Root parent y r1 ∧ Root parent y s)) := by
  have hfix2' : fupd parent r1 r2 r2 = r2 := by
    rw [fupd_noteq (Ne.symm hne)]; exact hfix2
  intro n
  induction n with
  | zero =>
    intro y s hn hs
    have hys : y = s := hn
    subst hys
    by_cases hsr : y = r1
    · exfalso
      have hsr2 : fupd parent r1 r2 y = r2 := by rw [hsr, fupd_same]
      rw [hs] at hsr2
      exact hne (hsr ▸ hsr2)
    · rw [fupd_noteq hsr] at hs
      refine Or.inr ⟨?_, Root_self_of_fix hs⟩
      rw [Root_fix_iff hs]
      exact fun hcon => hsr (hcon ▸ rfl)
  | succ n ih =>
    intro y s hn hs
    by_cases hyr : y = r1
    · have hstep : fupd parent r1 r2 y = r2 := by
        rw [hyr, fupd_same]
      have hn' : pIter (fupd parent r1 r2) n r2 = s := by
        have hh : pIter (fupd parent r1 r2) n
            (fupd parent r1 r2 y) = s := hn
        rwa [hstep] at hh
      have hsr2 : s = r2 := by rw [← hn']; exact pIter_fix hfix2' n
      refine Or.inl ⟨?_, hsr2⟩
      rw [hyr]
      exact Root_self_of_fix hfix1
    · have hstep : fupd parent r1 r2 y = parent y :=
        fupd_noteq hyr parent r2
      have hn' : pIter (fupd parent r1 r2) n (parent y) = s := by
        have hh : pIter (fupd parent r1 r2) n
            (fupd parent r1 r2 y) = s := hn
        rwa [hstep] at hh
      rcases ih (parent y) s hn' hs with ⟨hpy, hsr2⟩ | ⟨hpy, hpys⟩
      · exact Or.inl ⟨Root_of_parent hpy, hsr2⟩
      · refine Or.inr ⟨?_, Root_of_parent hpys⟩
        intro hcon
        by_cases hfy : parent y = y
        · exact hyr ((Root_fix_iff hfy).1 hcon).symm
        · exact hpy (Root_parent_of_ne hcon hfy)

lemma link_root_back1 {parent : String → String} {r1 r2 : String}
    (hfix2 : parent r2 = r2) (hne : r1 ≠ r2) :
    ∀ (n : Nat) (y : String), pIter parent n y = r1 →
      Root (fupd parent r1 r2) y r2 := by
  have hfix2' : fupd parent r1 r2 r2 = r2 := by
    rw [fupd_noteq (Ne.symm hne)]; exact hfix2
  intro n
  induction n with
  | zero =>
    intro y hn
    have hy : y = r1 := hn
    refine ⟨⟨1, ?_⟩, hfix2'⟩
    show fupd parent r1 r2 y = r2
    rw [hy, fupd_same]
  | succ n ih =>
    intro y hn
    by_cases hyr : y = r1
    · refine ⟨⟨1, ?_⟩, hfix2'⟩
      show fupd parent r1 r2 y = r2
      rw [hyr, fupd_same]
    · have hn' : pIter parent n (parent y) = r1 := hn
      have hrec := ih (parent y) hn'
      have hstep : fupd parent r1 r2 y = parent y :=
        fupd_noteq hyr parent r2
      exact Root_of_parent (by rw [hstep]; exact hrec)

lemma link_root_back2 {parent : String → String} {r1 r2 : String}
    (hfix1 : parent r1 = r1) :
    ∀ (n : Nat) (y s : String), ¬Root parent y r1 → pIter parent n y = s →
      parent s = s → Root (fupd parent r1 r2) y s := by
  intro n
  induction n with
  | zero =>
    intro y s hnot hn hs
    have hys : y = s := hn
    subst hys
    by_cases hsr : y = r1
    · exact absurd (by rw [hsr]; exact Root_self_of_fix hfix1) hnot
    · exact Root_self_of_fix (by rw [fupd_noteq hsr]; exact hs)
  | succ n ih =>
    intro y s hnot hn hs
    by_cases hyr : y = r1
    · exact absurd (by rw [hyr]; exact Root_self_of_fix hfix1) hnot
    · have hn' : pIter parent n (parent y) = s := hn
      have hnot' : ¬Root parent (parent y) r1 := fun hcon => hnot (Root_of_parent hcon)
      have hrec := ih (parent y) s hnot' hn' hs
      have hstep : fupd parent r1 r2 y = parent y :=
        fupd_noteq hyr parent r2
      exact Root_of_parent (by rw [hstep]; exact hrec)

lemma link_root_iff {parent : String → String} {r1 r2 : String}
    (hfix1 : parent r1 = r1) (hfix2 : parent r2 = r2) (hne : r1 ≠ r2) (y s : String) :
    Root (fupd parent r1 r2) y s ↔
      ((Root parent y r1 ∧ s = r2) ∨ (¬Root parent y r1 ∧ Root parent y s)) := by
  constructor
  · rintro ⟨⟨n, hn⟩, hs⟩
    exact link_root_forward hfix1 hfix2 hne n y s hn hs
  · rintro (⟨hyr1, hsr2⟩ | ⟨hnot, hroot⟩)
    · subst hsr2
      obtain ⟨⟨n, hn⟩, -⟩ := hyr1
      exact link_root_back1 hfix2 hne n y hn
    · obtain ⟨⟨n, hn⟩, hsfix⟩ := hroot
      exact link_root_back2 hfix1 n y s hnot hn hsfix

lemma link_eqclass {parent : String → String} {r1 r2 : String}
    (hfix1 : parent r1 = r1) (hfix2 : parent r2 = r2) (hne : r1 ≠ r2) (x y : String) :
    EqClass (fupd parent r1 r2) x y ↔
      (EqClass parent x y ∨ (Root parent x r1 ∧ Root parent y r2) ∨
        (Root parent x r2 ∧ Root parent y r1)) := by
  constructor
  · rintro ⟨s, hxs, hys⟩
    rw [link_root_iff hfix1 hfix2 hne] at hxs hys
    rcases hxs with ⟨hx1, hsr2⟩ | ⟨hxnot, hxs⟩ <;>
      rcases hys with ⟨hy1, hsr2y⟩ | ⟨hynot, hys⟩
    · exact Or.inl ⟨r1, hx1, hy1⟩
    · exact Or.inr (Or.inl ⟨hx1, by rw [← hsr2]; exact hys⟩)
    · exact Or.inr (Or.inr ⟨by rw [← hsr2y]; exact hxs, hy1⟩)
    · exact Or.inl ⟨s, hxs, hys⟩
  · rintro (⟨t, hxt, hyt⟩ | ⟨hx1, hy2⟩ | ⟨hx2, hy1⟩)
    · by_cases ht1 : t = r1
      · refine ⟨r2, ?_, ?_⟩ <;> rw [link_root_iff hfix1 hfix2 hne]
        · exact Or.inl ⟨by rw [← ht1]; exact hxt, rfl⟩
        · exact Or.inl ⟨by rw [← ht1]; exact hyt, rfl⟩
      · have hxnot : ¬Root parent x r1 := fun hcon => ht1 (Root_unique hxt hcon)
        have hynot : ¬Root parent y r1 := fun hcon => ht1 (Root_unique hyt hcon)
        refine ⟨t, ?_, ?_⟩ <;> rw [link_root_iff hfix1 hfix2 hne]
        · exact Or.inr ⟨hxnot, hxt⟩
        · exact Or.inr ⟨hynot, hyt⟩
    · refine ⟨r2, ?_, ?_⟩ <;> rw [link_root_iff hfix1 hfix2 hne]
      · exact Or.inl ⟨hx1, rfl⟩
      · exact Or.inr ⟨fun hcon => hne (Root_unique hcon hy2), hy2⟩
    · refine ⟨r2, ?_, ?_⟩ <;> rw [link_root_iff hfix1 hfix2 hne]
      · exact Or.inr ⟨fun hcon => hne (Root_unique hcon hx2), hx2⟩
      · exact Or.inl ⟨hy1, rfl⟩

end CapableExp

namespace CapableExp

lemma link_forest {ids : List String} {parent : String → String} {ht : String → Nat}
    (hf : ForestW ids parent ht) {r1 r2 : String}
    (h2 : r2 ∈ ids) (hfix1 : parent r1 = r1) (hfix2 : parent r2 = r2)
    (hne : r1 ≠ r2) : ∃ ht', ForestW ids (fupd parent r1 r2) ht' := by
  classical
  refine ⟨fun u => ht u + (if Root parent u r1 then ht r2 + 1 else 0), ?_⟩
  intro x hx
  by_cases hxr : x = r1
  · rw [hxr, fupd_same]
    refine ⟨h2, fun _ => ?_⟩
    show ht r2 + (if Root parent r2 r1 then ht r2 + 1 else 0) <
      ht r1 + (if Root parent r1 r1 then ht r2 + 1 else 0)
    have hnr2 : ¬Root parent r2 r1 := by
      intro hcon
      exact hne ((Root_fix_iff hfix2).1 hcon)
    rw [if_pos (Root_self_of_fix hfix1), if_neg hnr2]
    omega
  · rw [fupd_noteq hxr]
    refine ⟨(hf x hx).1, fun hne2 => ?_⟩
    show ht (parent x) + (if Root parent (parent x) r1 then ht r2 + 1 else 0) <
      ht x + (if Root parent x r1 then ht r2 + 1 else 0)
    have hlt : ht (parent x) < ht x := (hf x hx).2 hne2
    have hiff : Root parent (parent x) r1 ↔ Root parent x r1 :=
      ⟨Root_of_parent, fun h => Root_parent_of_ne h hne2⟩
    by_cases hr : Root parent x r1
    · rw [if_pos (hiff.2 hr), if_pos hr]
      omega
    · rw [if_neg (fun hcon => hr (hiff.1 hcon)), if_neg hr]
      omega

lemma ufUnion_some {ids : List String} {ht : String → Nat} {st : UFState}
    (hf : ForestW ids st.parent ht) {a b : String} (ha : a ∈ ids) (hb : b ∈ ids) :
    ∃ st' ht', ufUnion ids st a b = some st' ∧ ForestW ids st'.parent ht' ∧
      (∀ z, z ∉ ids → st'.parent z = st.parent z) ∧
      ∀ x y, EqClass st'.parent x y ↔
        (EqClass st.parent x y ∨ (EqClass st.parent x a ∧ EqClass st.parent b y) ∨
          (EqClass st.parent x b ∧ EqClass st.parent a y)) := by
  obtain ⟨ra, st1, hfindA, hrootA, hraMem, -, hf1, hiff1, hout1⟩ := ufFind_some hf ha
  obtain ⟨rb, st2, hfindB, hrootB1, hrbMem, hrank2, hf2, hiff2, hout2⟩ := ufFind_some hf1 hb
  have hrootB : Root st.parent b rb := (hiff1 b rb).1 hrootB1
  have hiff12 : ∀ y s, Root st2.parent y s ↔ Root st.parent y s :=
    fun y s => (hiff2 y s).trans (hiff1 y s)
  have hrootA2 : Root st2.parent a ra := (hiff12 a ra).2 hrootA
  have hrootB2 : Root st2.parent b rb := (hiff12 b rb).2 hrootB
  have hfixA : st2.parent ra = ra := hrootA2.2
  have hfixB : st2.parent rb = rb := hrootB2.2
  have houtComp : ∀ z, z ∉ ids → st2.parent z = st.parent z :=
    fun z hz => (hout2 z hz).trans (hout1 z hz)
  have hclassEq : ∀ x y, EqClass st2.parent x y ↔ EqClass st.parent x y := by
    intro x y
    constructor
    · rintro ⟨s, hxs, hys⟩
      exact ⟨s, (hiff12 x s).1 hxs, (hiff12 y s).1 hys⟩
    · rintro ⟨s, hxs, hys⟩
      exact ⟨s, (hiff12 x s).2 hxs, (hiff12 y s).2 hys⟩
  have hxa : ∀ x, EqClass st.parent x a ↔ Root st.parent x ra := EqClass_iff_root hrootA
  have hxb : ∀ x, EqClass st.parent x b ↔ Root st.parent x rb := EqClass_iff_root hrootB
  by_cases hrr : ra = rb
  · refine ⟨st2, ht, ?_, hf2, houtComp, ?_⟩
    · simp [ufUnion, hfindA, hfindB, hrr]
    · intro x y
      rw [hclassEq]
      constructor
      · exact fun h => Or.inl h
      · rintro (h | ⟨hxa2, hby⟩ | ⟨hxb2, hay⟩)
        · exact h
        · have hab : EqClass st.parent a b := ⟨ra, hrootA, hrr ▸ hrootB⟩
          exact EqClass_trans (EqClass_trans hxa2 hab) hby
        · have hba : EqClass st.parent b a := ⟨ra, hrr ▸ hrootB, hrootA⟩
          exact EqClass_trans (EqClass_trans hxb2 hba) hay
  · have hmainAB : ∀ x y, EqClass (fupd st2.parent ra rb) x y ↔
        (EqClass st.parent x y ∨ (EqClass st.parent x a ∧ EqClass st.parent b y) ∨
          (EqClass st.parent x b ∧ EqClass st.parent a y)) := by
      intro x y
      rw [link_eqclass hfixA hfixB hrr]
      constructor
      · rintro (h | ⟨hx1, hy2⟩ | ⟨hx2, hy1⟩)
        · exact Or.inl ((hclassEq x y).1 h)
        · exact Or.inr (Or.inl ⟨(hxa x).2 ((hiff12 x ra).1 hx1),
            EqClass_symm ((hxb y).2 ((hiff12 y rb).1 hy2))⟩)
        · exact Or.inr (Or.inr ⟨(hxb x).2 ((hiff12 x rb).1 hx2),
            EqClass_symm ((hxa y).2 ((hiff12 y ra).1 hy1))⟩)
      · rintro (h | ⟨hxa2, hby⟩ | ⟨hxb2, hay⟩)
        · exact Or.inl ((hclassEq x y).2 h)
        · exact Or.inr (Or.inl ⟨(hiff12 x ra).2 ((hxa x).1 hxa2),
            (hiff12 y rb).2 ((hxb y).1 (EqClass_symm hby))⟩)
        · exact Or.inr (Or.inr ⟨(hiff12 x rb).2 ((hxb x).1 hxb2),
            (hiff12 y ra).2 ((hxa y).1 (EqClass_symm hay))⟩)
    have hmainBA : ∀ x y, EqClass (fupd st2.parent rb ra) x y ↔
        (EqClass st.parent x y ∨ (EqClass st.parent x a ∧ EqClass st.parent b y) ∨
          (EqClass st.parent x b ∧ EqClass st.parent a y)) := by
      intro x y
      rw [link_eqclass hfixB hfixA (Ne.symm hrr)]
      constructor
      · rintro (h | ⟨hx1, hy2⟩ | ⟨hx2, hy1⟩)
        · exact Or.inl ((hclassEq x y).1 h)
        · exact Or.inr (Or.inr ⟨(hxb x).2 ((hiff12 x rb).1 hx1),
            EqClass_symm ((hxa y).2 ((hiff12 y ra).1 hy2))⟩)
        · exact Or.inr (Or.inl ⟨(hxa x).2 ((hiff12 x ra).1 hx2),
            EqClass_symm ((hxb y).2 ((hiff12 y rb).1 hy1))⟩)
      · rintro (h | ⟨hxa2, hby⟩ | ⟨hxb2, hay⟩)
        · exact Or.inl ((hclassEq x y).2 h)
        · exact Or.inr (Or.inr ⟨(hiff12 x ra).2 ((hxa x).1 hxa2),
            (hiff12 y rb).2 ((hxb y).1 (EqClass_symm hby))⟩)
        · exact Or.inr (Or.inl ⟨(hiff12 x rb).2 ((hxb x).1 hxb2),
            (hiff12 y ra).2 ((hxa y).1 (EqClass_symm hay))⟩)
    by_cases hlt : st2.rank ra < st2.rank rb
    · obtain ⟨ht', hf'⟩ := link_forest hf2 hrbMem hfixA hfixB hrr
      refine ⟨{ st2 with parent := fupd st2.parent ra rb }, ht', ?_, hf', ?_, hmainAB⟩
      · simp [ufUnion, hfindA, hfindB, hrr, hlt]
      · intro z hz
        have hzr : z ≠ ra := fun hzr => hz (by rw [hzr]; exact hraMem)
        show fupd st2.parent ra rb z = st.parent z
        rw [fupd_noteq hzr]
        exact houtComp z hz
    · obtain ⟨ht', hf'⟩ := link_forest hf2 hraMem hfixB hfixA (Ne.symm hrr)
      by_cases hgt : st2.rank rb < st2.rank ra
      · refine ⟨{ st2 with parent := fupd st2.parent rb ra }, ht', ?_, hf', ?_, hmainBA⟩
        · simp [ufUnion, hfindA, hfindB, hrr, hlt, hgt]
        · intro z hz
          have hzr : z ≠ rb := fun hzr => hz (by rw [hzr]; exact hrbMem)
          show fupd st2.parent rb ra z = st.parent z
          rw [fupd_noteq hzr]
          exact houtComp z hz
      · refine ⟨⟨fupd st2.parent rb ra,
          fupd st2.rank ra (st2.rank ra + 1)⟩, ht', ?_, hf', ?_, hmainBA⟩
        · simp [ufUnion, hfindA, hfindB, hrr, hlt, hgt]
        · intro z hz
          have hzr : z ≠ rb := fun hzr => hz (by rw [hzr]; exact hrbMem)
          show fupd st2.parent rb ra z = st.parent z
          rw [fupd_noteq hzr]
          exact houtComp z hz

end CapableExp

namespace CapableExp

/-! ## Processing all edges: same-root equals connectivity -/

lemma eqvgen_lift {α : Type} {R S : α → α → Prop}
    (h : ∀ u v, R u v → Relation.EqvGen S u v) {x y : α}
    (hxy : Relation.EqvGen R x y) : Relation.EqvGen S x y := by
  induction hxy with
  | rel u v huv => exact h u v huv
  | refl u => exact Relation.EqvGen.refl u
  | symm u v _ ih => exact Relation.EqvGen.symm u v ih
  | trans u v w _ _ ih₁ ih₂ => exact Relation.EqvGen.trans u v w ih₁ ih₂

lemma eqvgen_congr {α : Type} {R S : α → α → Prop}
    (hrs : ∀ u v, R u v → Relation.EqvGen S u v)
    (hsr : ∀ u v, S u v → Relation.EqvGen R u v) (x y : α) :
    Relation.EqvGen R x y ↔ Relation.EqvGen S x y :=
  ⟨fun h => eqvgen_lift hrs h, fun h => eqvgen_lift hsr h⟩

lemma eqvgen_eqclass {parent : String → String} (hex : ∀ x, EqClass parent x x)
    {x y : String} (h : Relation.EqvGen (EqClass parent) x y) : EqClass parent x y := by
  induction h with
  | rel u v huv => exact huv
  | refl u => exact hex u
  | symm u v _ ih => exact EqClass_symm ih
  | trans u v w _ _ ih₁ ih₂ => exact EqClass_trans ih₁ ih₂

lemma EqClass_refl_all {ids : List String} {parent : String → String} {ht : String → Nat}
    (hf : ForestW ids parent ht) (hout : ∀ z, z ∉ ids → parent z = z) (x : String) :
    EqClass parent x x := by
  by_cases hx : x ∈ ids
  · obtain ⟨r, -, hroot, -⟩ := pRoot_ok hf hx
    exact ⟨r, hroot, hroot⟩
  · exact ⟨x, Root_self_of_fix (hout x hx), Root_self_of_fix (hout x hx)⟩

lemma processEdges_some {ids : List String} :
    ∀ (edges : List (String × String)) (st : UFState) (ht : String → Nat),
      ForestW ids st.parent ht → (∀ z, z ∉ ids → st.parent z = z) →
      EdgesCovered ids edges →
      ∃ st' ht', processEdges ids st edges = some st' ∧ ForestW ids st'.parent ht' ∧
        (∀ z, z ∉ ids → st'.parent z = z) ∧
        ∀ x y, EqClass st'.parent x y ↔
          Relation.EqvGen (fun u v => EqClass st.parent u v ∨ (u, v) ∈ edges) x y := by
  intro edges
  induction edges with
  | nil =>
    intro st ht hf hout _
    refine ⟨st, ht, rfl, hf, hout, fun x y => ?_⟩
    constructor
    · intro h
      exact Relation.EqvGen.rel x y (Or.inl h)
    · intro h
      refine eqvgen_eqclass (EqClass_refl_all hf hout) (eqvgen_lift ?_ h)
      rintro u v (huv | huv)
      · exact Relation.EqvGen.rel u v huv
      · exact absurd huv (List.not_mem_nil _)
  | cons e es ih =>
    intro st ht hf hout hcov
    obtain ⟨hl, hr⟩ := hcov e (List.mem_cons_self e es)
    obtain ⟨st1, ht1, hunion, hf1, hout1, hchar⟩ := ufUnion_some hf hl hr
    have hout1' : ∀ z, z ∉ ids → st1.parent z = z :=
      fun z hz => (hout1 z hz).trans (hout z hz)
    have hcoves : EdgesCovered ids es := fun e' he' => hcov e' (List.mem_cons_of_mem e he')
    obtain ⟨st', ht', hproc, hf', hout', hchar'⟩ := ih st1 ht1 hf1 hout1' hcoves
    have hex : ∀ x, EqClass st.parent x x := EqClass_refl_all hf hout
    refine ⟨st', ht', ?_, hf', hout', fun x y => ?_⟩
    · cases e with
      | mk l r => simp [processEdges, hunion, hproc]
    · rw [hchar' x y]
      apply eqvgen_congr
      · rintro u v (huv | huv)
        · rw [hchar u v] at huv
          rcases huv with h | ⟨hua, hbv⟩ | ⟨hub, hav⟩
          · exact Relation.EqvGen.rel u v (Or.inl h)
          · refine Relation.EqvGen.trans u e.1 v
              (Relation.EqvGen.rel u e.1 (Or.inl hua))
              (Relation.EqvGen.trans e.1 e.2 v
                (Relation.EqvGen.rel e.1 e.2 (Or.inr (List.mem_cons_self e es)))
                (Relation.EqvGen.rel e.2 v (Or.inl hbv)))
          · refine Relation.EqvGen.trans u e.2 v
              (Relation.EqvGen.rel u e.2 (Or.inl hub))
              (Relation.EqvGen.trans e.2 e.1 v
                (Relation.EqvGen.symm e.1 e.2
                  (Relation.EqvGen.rel e.1 e.2 (Or.inr (List.mem_cons_self e es))))
                (Relation.EqvGen.rel e.1 v (Or.inl hav)))
        · exact Relation.EqvGen.rel u v (Or.inr (List.mem_cons_of_mem e huv))
      · rintro u v (huv | huv)
        · exact Relation.EqvGen.rel u v (Or.inl ((hchar u v).2 (Or.inl huv)))
        · rcases List.mem_cons.1 huv with heq | hmem
          · have huv2 : EqClass st1.parent u v := by
              rw [hchar u v]
              have hu : u = e.1 := congrArg Prod.fst heq
              have hv : v = e.2 := congrArg Prod.snd heq
              exact Or.inr (Or.inl ⟨hu ▸ hex u, hv ▸ hex v⟩)
            exact Relation.EqvGen.rel u v (Or.inl huv2)
          · exact Relation.EqvGen.rel u v (Or.inr hmem)

end CapableExp

namespace CapableExp

/-! ## The grouping fold and the canonical-choice loop -/

lemma lookup_addToGroup {β : Type} (d : List (String × List β)) (key q : String) (v : β) :
    List.lookup q (addToGroup d key v) =
      if q = key then some ((List.lookup q d).getD [] ++ [v]) else List.lookup q d := by
  induction d with
  | nil =>
    by_cases hq : q = key
    · rw [if_pos hq]
      show List.lookup q [(key, [v])] = _
      rw [List.lookup_cons, beq_iff_eq.2 hq]
      rfl
    · rw [if_neg hq]
      show List.lookup q [(key, [v])] = _
      rw [List.lookup_cons, beq_eq_false_iff_ne.2 hq]
  | cons p rest ih =>
    obtain ⟨a, vs⟩ := p
    by_cases hak : a = key
    · subst hak
      rw [show addToGroup ((a, vs) :: rest) a v = (a, vs ++ [v]) :: rest from by
        rw [addToGroup, if_pos rfl]]
      by_cases hq : q = a
      · rw [if_pos hq, List.lookup_cons, List.lookup_cons, beq_iff_eq.2 hq]
        rfl
      · rw [if_neg hq, List.lookup_cons, List.lookup_cons, beq_eq_false_iff_ne.2 hq]
    · rw [show addToGroup ((a, vs) :: rest) key v = (a, vs) :: addToGroup rest key v from by
        rw [addToGroup, if_neg hak]]
      by_cases hq : q = a
      · have hqk : ¬q = key := fun hc => hak ((hq.symm.trans hc))
        rw [if_neg hqk, List.lookup_cons, List.lookup_cons, beq_iff_eq.2 hq]
      · rw [List.lookup_cons, List.lookup_cons, beq_eq_false_iff_ne.2 hq, ih]

lemma lookup_foldl_addToGroup (ρ : String → String) :
    ∀ (rest : List String) (comps : List (String × List String)) (k : String),
      List.lookup k (rest.foldl (fun c s => addToGroup c (ρ s) s) comps) =
        match List.lookup k comps with
        | some g => some (g ++ rest.filter (fun s => ρ s = k))
        | none =>
          if rest.filter (fun s => ρ s = k) = [] then none
          else some (rest.filter (fun s => ρ s = k)) := by
  intro rest
  induction rest with
  | nil =>
    intro comps k
    cases h : List.lookup k comps with
    | none => simp [h, List.filter]
    | some g => simp [h, List.filter]
  | cons s rest ih =>
    intro comps k
    rw [List.foldl_cons, ih (addToGroup comps (ρ s) s) k, lookup_addToGroup]
    by_cases hsk : ρ s = k
    · have hq : k = ρ s := hsk.symm
      rw [if_pos hq]
      have hfil : (s :: rest).filter (fun t => ρ t = k) =
          s :: rest.filter (fun t => ρ t = k) := by
        simp [List.filter_cons, hsk]
      cases h : List.lookup k comps with
      | none => simp [h, hfil]
      | some g => simp [h, hfil]
    · have hq : ¬(k = ρ s) := fun hc => hsk hc.symm
      rw [if_neg hq]
      have hfil : (s :: rest).filter (fun t => ρ t = k) =
          rest.filter (fun t => ρ t = k) := by
        simp [List.filter_cons, hsk]
      cases h : List.lookup k comps with
      | none => simp [h, hfil]
      | some g => simp [h, hfil]

lemma addToGroup_entries_ne_nil {β : Type} (d : List (String × List β)) (key : String) (v : β)
    (hd : ∀ p ∈ d, p.2 ≠ []) : ∀ p ∈ addToGroup d key v, p.2 ≠ [] := by
  induction d with
  | nil =>
    intro p hp
    simp [addToGroup] at hp
    rw [hp]
    simp
  | cons q rest ih =>
    obtain ⟨a, vs⟩ := q
    intro p hp
    by_cases hak : a = key
    · rw [addToGroup, if_pos hak] at hp
      rcases List.mem_cons.1 hp with h | h
      · rw [h]; simp
      · exact hd p (List.mem_cons_of_mem _ h)
    · rw [addToGroup, if_neg hak] at hp
      rcases List.mem_cons.1 hp with h | h
      · rw [h]; exact hd (a, vs) (List.mem_cons_self _ _)
      · exact ih (fun q hq => hd q (List.mem_cons_of_mem _ hq)) p h

lemma foldl_addToGroup_entries_ne_nil (ρ : String → String) :
    ∀ (rest : List String) (comps : List (String × List String)),
      (∀ p ∈ comps, p.2 ≠ []) →
      ∀ p ∈ rest.foldl (fun c s => addToGroup c (ρ s) s) comps, p.2 ≠ [] := by
  intro rest
  induction rest with
  | nil => intro comps h; exact h
  | cons s rest ih =>
    intro comps h
    exact ih (addToGroup comps (ρ s) s) (addToGroup_entries_ne_nil comps (ρ s) s h)

lemma sortedHead_spec {xs : List String} {c : String} (h : sortedHead xs = some c) :
    c ∈ xs ∧ ∀ y ∈ xs, c ≤ y := by
  unfold sortedHead at h
  have hperm : (@List.insertionSort String (fun a b => a ≤ b) strLeDec xs).Perm xs :=
    @List.perm_insertionSort String (fun a b => a ≤ b) strLeDec xs
  have hpair : List.Sorted (fun a b : String => a ≤ b)
      (@List.insertionSort String (fun a b => a ≤ b) strLeDec xs) :=
    @List.sorted_insertionSort String (fun a b => a ≤ b) strLeDec inferInstance inferInstance xs
  cases hs : @List.insertionSort String (fun a b => a ≤ b) strLeDec xs with
  | nil => rw [hs] at h; simp [List.head?] at h
  | cons z zs =>
    rw [hs] at h
    simp [List.head?] at h
    subst h
    rw [hs] at hperm hpair
    constructor
    · exact hperm.mem_iff.1 (List.mem_cons_self _ _)
    · intro y hy
      rcases List.mem_cons.1 (hperm.mem_iff.2 hy) with hyz | hyz
      · rw [hyz]
      · exact (List.pairwise_cons.1 hpair).1 y hyz

lemma sortedHead_isSome {xs : List String} (h : xs ≠ []) : ∃ c, sortedHead xs = some c := by
  unfold sortedHead
  have hperm : (@List.insertionSort String (fun a b => a ≤ b) strLeDec xs).Perm xs :=
    @List.perm_insertionSort String (fun a b => a ≤ b) strLeDec xs
  cases hs : @List.insertionSort String (fun a b => a ≤ b) strLeDec xs with
  | nil =>
    rw [hs] at hperm
    exact absurd (hperm.symm.eq_nil) h
  | cons z zs => exact ⟨z, by simp [List.head?]⟩

lemma canonicalByRoot_some (removed : List String) :
    ∀ (comps : List (String × List String)), (∀ p ∈ comps, p.2 ≠ []) →
      ∃ cbr, canonicalByRoot removed comps = some cbr ∧
        ∀ k, List.lookup k cbr = (List.lookup k comps).bind (fun members =>
          sortedHead (if members.filter (fun s => s ∉ removed) = [] then members
            else members.filter (fun s => s ∉ removed))) := by
  intro comps
  induction comps with
  | nil => exact fun _ => ⟨[], rfl, fun k => rfl⟩
  | cons p rest ih =>
    intro hne
    obtain ⟨root, members⟩ := p
    have hmem : members ≠ [] := hne (root, members) (List.mem_cons_self _ _)
    have hcand : (if members.filter (fun s => s ∉ removed) = [] then members
        else members.filter (fun s => s ∉ removed)) ≠ [] := by
      by_cases hf : members.filter (fun s => s ∉ removed) = []
      · rw [if_pos hf]; exact hmem
      · rw [if_neg hf]; exact hf
    obtain ⟨c, hc⟩ := sortedHead_isSome hcand
    obtain ⟨cbr, hcbr, hlook⟩ := ih (fun q hq => hne q (List.mem_cons_of_mem _ hq))
    refine ⟨(root, c) :: cbr, ?_, ?_⟩
    · rw [canonicalByRoot]
      simp only [hc, hcbr]
    · intro k
      by_cases hk : k = root
      · rw [List.lookup_cons, List.lookup_cons, beq_iff_eq.2 hk]
        exact hc.symm
      · rw [List.lookup_cons, List.lookup_cons, beq_eq_false_iff_ne.2 hk]
        exact hlook k

end CapableExp

namespace CapableExp

lemma buildComponents_some {ids : List String} {ht : String → Nat} (ρ : String → String) :
    ∀ (rest : List String) (st : UFState) (comps : List (String × List String)),
      ForestW ids st.parent ht →
      (∀ s ∈ ids, Root st.parent s (ρ s)) →
      (∀ x ∈ rest, x ∈ ids) →
      ∃ st', buildComponents ids st rest comps =
          some (st', rest.foldl (fun c s => addToGroup c (ρ s) s) comps) ∧
        ForestW ids st'.parent ht ∧
        (∀ s ∈ ids, Root st'.parent s (ρ s)) := by
  intro rest
  induction rest with
  | nil =>
    intro st comps hf hρ _
    exact ⟨st, rfl, hf, hρ⟩
  | cons s rest ih =>
    intro st comps hf hρ hsub
    have hs : s ∈ ids := hsub s (List.mem_cons_self _ _)
    obtain ⟨r, st1, hfind, hroot, -, -, hf1, hiff1, -⟩ := ufFind_some hf hs
    have hrρ : r = ρ s := Root_unique hroot (hρ s hs)
    have hρ1 : ∀ t ∈ ids, Root st1.parent t (ρ t) :=
      fun t htm => (hiff1 t (ρ t)).2 (hρ t htm)
    obtain ⟨st', hrest, hf', hρ'⟩ :=
      ih st1 (addToGroup comps (ρ s) s) hf1 hρ1 (fun x hx => hsub x (List.mem_cons_of_mem _ hx))
    refine ⟨st', ?_, hf', hρ'⟩
    simp only [buildComponents, hfind]
    rw [hrρ, List.foldl_cons]
    exact hrest

lemma finalMap_some {ids : List String} {ht : String → Nat} (ρ : String → String)
    (cbr : List (String × String)) :
    ∀ (rest : List String) (st : UFState),
      ForestW ids st.parent ht →
      (∀ s ∈ ids, Root st.parent s (ρ s)) →
      (∀ x ∈ rest, x ∈ ids) →
      (∀ s ∈ rest, (List.lookup (ρ s) cbr).isSome) →
      finalMap ids cbr st rest =
        some (rest.map (fun s => (s, (List.lookup (ρ s) cbr).getD s))) := by
  intro rest
  induction rest with
  | nil => intro st _ _ _ _; rfl
  | cons s rest ih =>
    intro st hf hρ hsub hlook
    have hs : s ∈ ids := hsub s (List.mem_cons_self _ _)
    obtain ⟨r, st1, hfind, hroot, -, -, hf1, hiff1, -⟩ := ufFind_some hf hs
    have hrρ : r = ρ s := Root_unique hroot (hρ s hs)
    have hρ1 : ∀ t ∈ ids, Root st1.parent t (ρ t) :=
      fun t htm => (hiff1 t (ρ t)).2 (hρ t htm)
    obtain ⟨c, hc⟩ := Option.isSome_iff_exists.1 (hlook s (List.mem_cons_self _ _))
    have hrest := ih st1 hf1 hρ1 (fun x hx => hsub x (List.mem_cons_of_mem _ hx))
      (fun t htm => hlook t (List.mem_cons_of_mem _ htm))
    simp only [finalMap, hfind, hrρ, hc, hrest, List.map_cons, Option.getD_some]

end CapableExp

namespace CapableExp

/-! ## Assembling the full specification of `build_canonical_map` -/

lemma pIter_id (n : Nat) (x : String) : pIter (fun s => s) n x = x := by
  induction n with
  | zero => rfl
  | succ n ih => exact ih

lemma EqClass_id (x y : String) : EqClass (fun s : String => s) x y ↔ x = y := by
  constructor
  · rintro ⟨r, ⟨⟨n, hn⟩, -⟩, ⟨⟨m, hm⟩, -⟩⟩
    rw [pIter_id] at hn hm
    rw [hn, hm]
  · rintro rfl
    exact ⟨x, Root_self_of_fix rfl, Root_self_of_fix rfl⟩

lemma lookup_map_self {x : String} (c : String → String) :
    ∀ (ids : List String), x ∈ ids →
      List.lookup x (ids.map (fun s => (s, c s))) = some (c x) := by
  intro ids
  induction ids with
  | nil => intro hx; cases hx
  | cons a rest ih =>
    intro hx
    by_cases hxa : x = a
    · rw [List.map_cons, List.lookup_cons, beq_iff_eq.2 hxa, hxa]
    · rw [List.map_cons, List.lookup_cons, beq_eq_false_iff_ne.2 hxa]
      exact ih ((List.mem_cons.1 hx).resolve_left hxa)

end CapableExp

namespace CapableExp

lemma build_canonical_map_spec {ids : List String} {edges : List (String × String)}
    (hcov : EdgesCovered ids edges) :
    ∃ c : String → String,
      build_canonical_map ids edges = some (ids.map (fun s => (s, c s))) ∧
      ∀ x ∈ ids,
        (c x ∈ ids ∧ Linked edges x (c x)) ∧
        (∀ y ∈ ids, Linked edges x y → c y = c x) ∧
        ((∃ y, y ∈ ids ∧ Linked edges x y ∧ y ∉ childList edges) →
          c x ∉ childList edges ∧
            ∀ y ∈ ids, Linked edges x y → y ∉ childList edges → c x ≤ y) ∧
        ((∀ y, y ∈ ids → Linked edges x y → y ∈ childList edges) →
          ∀ y ∈ ids, Linked edges x y → c x ≤ y) := by
  have hf0 : ForestW ids (fun s => s) (fun _ => 0) :=
    fun x hx => ⟨hx, fun hne => absurd rfl hne⟩
  obtain ⟨st1, ht1, hproc, hf1, hout1, hchar1⟩ :=
    processEdges_some edges { parent := fun s => s, rank := fun _ => 0 } (fun _ => 0)
      hf0 (fun z _ => rfl) hcov
  have hlinked : ∀ x y, EqClass st1.parent x y ↔ Linked edges x y := by
    intro x y
    rw [hchar1 x y]
    apply eqvgen_congr
    · rintro u v (huv | huv)
      · have huveq : u = v := (EqClass_id u v).1 huv
        rw [huveq]
        exact Relation.EqvGen.refl v
      · exact Relation.EqvGen.rel u v huv
    · intro u v huv
      exact Relation.EqvGen.rel u v (Or.inr huv)
  have hex : ∀ s, ∃ r, s ∈ ids → Root st1.parent s r := by
    intro s
    by_cases hs : s ∈ ids
    · obtain ⟨r, -, hroot, -⟩ := pRoot_ok hf1 hs
      exact ⟨r, fun _ => hroot⟩
    · exact ⟨s, fun hc => absurd hc hs⟩
  choose ρ hρ using hex
  have hρm : ∀ s ∈ ids, Root st1.parent s (ρ s) := fun s hs => hρ s hs
  obtain ⟨st2, hcomps, hf2, hρ2⟩ :=
    buildComponents_some ρ ids st1 [] hf1 hρm (fun x hx => hx)
  have hentries : ∀ p ∈ ids.foldl (fun c s => addToGroup c (ρ s) s) [], p.2 ≠ [] :=
    foldl_addToGroup_entries_ne_nil ρ ids []
      (fun p hp => absurd hp (List.not_mem_nil p))
  obtain ⟨cbr, hcbr, hcbrlook⟩ :=
    canonicalByRoot_some (edges.map Prod.fst) _ hentries
  have hcomplook : ∀ k, List.lookup k (ids.foldl (fun c s => addToGroup c (ρ s) s) []) =
      if ids.filter (fun s => ρ s = k) = [] then none
      else some (ids.filter (fun s => ρ s = k)) :=
    fun k => lookup_foldl_addToGroup ρ ids [] k
  have hgroup_iff : ∀ x ∈ ids, ∀ y,
      (y ∈ ids.filter (fun s => ρ s = ρ x)) ↔ (y ∈ ids ∧ Linked edges x y) := by
    intro x hx y
    rw [List.mem_filter]
    constructor
    · rintro ⟨hyids, hdec⟩
      have hρeq : ρ y = ρ x := of_decide_eq_true hdec
      refine ⟨hyids, (hlinked x y).1 ⟨ρ x, hρm x hx, ?_⟩⟩
      rw [← hρeq]
      exact hρm y hyids
    · rintro ⟨hyids, hlink⟩
      obtain ⟨r, hxr, hyr⟩ := (hlinked x y).2 hlink
      have h1 : ρ x = r := Root_unique (hρm x hx) hxr
      have h2 : ρ y = r := Root_unique (hρm y hyids) hyr
      exact ⟨hyids, decide_eq_true (h1 ▸ h2)⟩
  have hcbrx : ∀ x ∈ ids, ∃ cx, List.lookup (ρ x) cbr = some cx ∧
      sortedHead (if (ids.filter (fun s => ρ s = ρ x)).filter
          (fun s => s ∉ edges.map Prod.fst) = []
        then ids.filter (fun s => ρ s = ρ x)
        else (ids.filter (fun s => ρ s = ρ x)).filter
          (fun s => s ∉ edges.map Prod.fst)) = some cx := by
    intro x hx
    have hxin : x ∈ ids.filter (fun s => ρ s = ρ x) :=
      (hgroup_iff x hx x).2 ⟨hx, Relation.EqvGen.refl x⟩
    have hne : ids.filter (fun s => ρ s = ρ x) ≠ [] := by
      intro hc
      rw [hc] at hxin
      exact absurd hxin (List.not_mem_nil x)
    have hcandne : (if (ids.filter (fun s => ρ s = ρ x)).filter
          (fun s => s ∉ edges.map Prod.fst) = []
        then ids.filter (fun s => ρ s = ρ x)
        else (ids.filter (fun s => ρ s = ρ x)).filter
          (fun s => s ∉ edges.map Prod.fst)) ≠ [] := by
      by_cases hfe : (ids.filter (fun s => ρ s = ρ x)).filter
          (fun s => s ∉ edges.map Prod.fst) = []
      · rw [if_pos hfe]; exact hne
      · rw [if_neg hfe]; exact hfe
    obtain ⟨cx, hcx⟩ := sortedHead_isSome hcandne
    refine ⟨cx, ?_, hcx⟩
    rw [hcbrlook (ρ x), hcomplook (ρ x), if_neg hne]
    exact hcx
  have hlookAll : ∀ s ∈ ids, (List.lookup (ρ s) cbr).isSome := by
    intro s hs
    obtain ⟨cx, hcx, -⟩ := hcbrx s hs
    rw [hcx]
    rfl
  have hfinal := finalMap_some ρ cbr ids st2 hf2 hρ2 (fun x hx => hx) hlookAll
  refine ⟨fun s => (List.lookup (ρ s) cbr).getD s, ?_, ?_⟩
  · simp only [build_canonical_map, hproc, hcomps, hcbr, hfinal]
  · intro x hx
    obtain ⟨cx, hcx, hsh⟩ := hcbrx x hx
    have hcxval : (List.lookup (ρ x) cbr).getD x = cx := by rw [hcx]; rfl
    obtain ⟨hcxmem, hcxmin⟩ := sortedHead_spec hsh
    have hcand_sub : ∀ z, z ∈ (if (ids.filter (fun s => ρ s = ρ x)).filter
          (fun s => s ∉ edges.map Prod.fst) = []
        then ids.filter (fun s => ρ s = ρ x)
        else (ids.filter (fun s => ρ s = ρ x)).filter
          (fun s => s ∉ edges.map Prod.fst)) → z ∈ ids.filter (fun s => ρ s = ρ x) := by
      intro z hz
      by_cases hfe : (ids.filter (fun s => ρ s = ρ x)).filter
          (fun s => s ∉ edges.map Prod.fst) = []
      · rw [if_pos hfe] at hz; exact hz
      · rw [if_neg hfe] at hz; exact List.mem_of_mem_filter hz
    have hcx_grp : cx ∈ ids ∧ Linked edges x cx :=
      (hgroup_iff x hx cx).1 (hcand_sub cx hcxmem)
    refine ⟨?_, ?_, ?_, ?_⟩
    · simp only [hcxval]
      exact hcx_grp
    · intro y hy hlink
      obtain ⟨r, hxr, hyr⟩ := (hlinked x y).2 hlink
      have hρxy : ρ y = ρ x :=
        (Root_unique (hρm y hy) hyr).trans (Root_unique (hρm x hx) hxr).symm
      show (List.lookup (ρ y) cbr).getD y = (List.lookup (ρ x) cbr).getD x
      rw [hρxy, hcx]
      rfl
    · rintro ⟨y₀, hy₀ids, hy₀link, hy₀nc⟩
      have hy₀mem : y₀ ∈ (ids.filter (fun s => ρ s = ρ x)).filter
          (fun s => s ∉ edges.map Prod.fst) :=
        List.mem_filter.2 ⟨(hgroup_iff x hx y₀).2 ⟨hy₀ids, hy₀link⟩,
          decide_eq_true hy₀nc⟩
      have hfe : (ids.filter (fun s => ρ s = ρ x)).filter
          (fun s => s ∉ edges.map Prod.fst) ≠ [] := by
        intro hc
        rw [hc] at hy₀mem
        exact absurd hy₀mem (List.not_mem_nil y₀)
      rw [if_neg hfe] at hcxmem hcxmin
      have hcxnc : cx ∉ edges.map Prod.fst :=
        of_decide_eq_true (List.mem_filter.1 hcxmem).2
      refine ⟨by simp only [hcxval]; exact hcxnc, ?_⟩
      intro y hy hlink hync
      have hymem : y ∈ (ids.filter (fun s => ρ s = ρ x)).filter
          (fun s => s ∉ edges.map Prod.fst) :=
        List.mem_filter.2 ⟨(hgroup_iff x hx y).2 ⟨hy, hlink⟩, decide_eq_true hync⟩
      simp only [hcxval]
      exact hcxmin y hymem
    · intro hallc
      intro y hy hlink
      have hfe : (ids.filter (fun s => ρ s = ρ x)).filter
          (fun s => s ∉ edges.map Prod.fst) = [] := by
        by_contra hfe
        obtain ⟨z, hz⟩ := List.exists_mem_of_ne_nil _ hfe
        obtain ⟨hzgrp, hznc⟩ := List.mem_filter.1 hz
        obtain ⟨hzids, hzlink⟩ := (hgroup_iff x hx z).1 hzgrp
        exact absurd (hallc z hzids hzlink) (of_decide_eq_true hznc)
      rw [if_pos hfe] at hcxmin
      have hymem : y ∈ ids.filter (fun s => ρ s = ρ x) :=
        (hgroup_iff x hx y).2 ⟨hy, hlink⟩
      simp only [hcxval]
      exact hcxmin y hymem

end CapableExp

namespace CapableExp

/-! ## Association-list facts for the aggregation step -/

lemma lookup_map_none {x : String} (c : String → String) :
    ∀ (ids : List String), x ∉ ids →
      List.lookup x (ids.map (fun s => (s, c s))) = none := by
  intro ids
  induction ids with
  | nil => intro _; rfl
  | cons a rest ih =>
    intro hx
    have hxa : x ≠ a := fun hc => hx (by rw [hc]; exact List.mem_cons_self _ _)
    rw [List.map_cons, List.lookup_cons, beq_eq_false_iff_ne.2 hxa]
    exact ih (fun hc => hx (List.mem_cons_of_mem _ hc))

lemma addToGroup_keys {β : Type} (d : List (String × List β)) (k : String) (v : β) :
    ∀ p ∈ addToGroup d k v, p.1 = k ∨ p.1 ∈ d.map Prod.fst := by
  induction d with
  | nil =>
    intro p hp
    rcases List.mem_cons.1 hp with h | h
    · rw [h]; exact Or.inl rfl
    · exact absurd h (List.not_mem_nil p)
  | cons q rest ih =>
    obtain ⟨a, vs⟩ := q
    intro p hp
    by_cases hak : a = k
    · rw [addToGroup, if_pos hak] at hp
      rcases List.mem_cons.1 hp with h | h
      · rw [h]; exact Or.inl hak
      · exact Or.inr (List.mem_cons_of_mem _ (List.mem_map_of_mem Prod.fst h))
    · rw [addToGroup, if_neg hak] at hp
      rcases List.mem_cons.1 hp with h | h
      · rw [h]; exact Or.inr (List.mem_cons_self _ _)
      · rcases ih p h with h' | h'
        · exact Or.inl h'
        · exact Or.inr (List.mem_cons_of_mem _ h')

/-- The grouping fold of `build_canonical_avg` only ever creates keys that are
canonical ids of surviving entries; in particular none of its keys lies in
`invalid_canon`. -/
lemma build_canonical_avg_keys (entries : List Entry) (cm : List (String × String))
    (inv : List String) :
    ∀ p ∈ build_canonical_avg entries cm inv, p.1 ∉ inv := by
  have main : ∀ (es : List Entry) (acc : List (String × List ℚ)),
      (∀ p ∈ acc, p.1 ∉ inv) →
      ∀ p ∈ es.foldl (fun acc entry =>
        if entry.invalid then acc
        else if entry.removed_for ≠ "" then acc
        else
          let seq := strip entry.seq
          if seq = "" then acc
          else
            let canonical := (List.lookup seq cm).getD seq
            if canonical ∈ inv then acc
            else addToGroup acc canonical entry.elo) acc, p.1 ∉ inv := by
    intro es
    induction es with
    | nil => intro acc hacc; exact hacc
    | cons e rest ih =>
      intro acc hacc
      apply ih
      dsimp only
      by_cases h1 : e.invalid = true
      · rw [if_pos h1]; exact hacc
      · rw [if_neg h1]
        by_cases h2 : e.removed_for ≠ ""
        · rw [if_pos h2]; exact hacc
        · rw [if_neg h2]
          by_cases h3 : strip e.seq = ""
          · rw [if_pos h3]; exact hacc
          · rw [if_neg h3]
            by_cases h4 : (List.lookup (strip e.seq) cm).getD (strip e.seq) ∈ inv
            · rw [if_pos h4]; exact hacc
            · rw [if_neg h4]
              intro p hp
              rcases addToGroup_keys acc _ e.elo p hp with h | h
              · rw [h]; exact h4
              · obtain ⟨q, hq, hq1⟩ := List.mem_map.1 h
                rw [← hq1]
                exact hacc q hq
  intro p hp
  obtain ⟨g, hg, hgp⟩ := List.mem_map.1 hp
  have hg' : g ∈ entries.foldl _ [] := List.mem_of_mem_filter hg
  have := main entries [] (fun q hq => absurd hq (List.not_mem_nil q)) g hg'
  rw [← hgp]
  exact this

lemma lookup_eq_none_of_keys {β : Type} {c : String} :
    ∀ {l : List (String × β)}, (∀ p ∈ l, p.1 ≠ c) → List.lookup c l = none := by
  intro l
  induction l with
  | nil => intro _; rfl
  | cons p rest ih =>
    intro h
    obtain ⟨a, v⟩ := p
    have hac : c ≠ a := fun hc => h (a, v) (List.mem_cons_self _ _) hc.symm
    rw [List.lookup_cons, beq_eq_false_iff_ne.2 hac]
    exact ih (fun q hq => h q (List.mem_cons_of_mem _ hq))

end CapableExp

namespace CapableExp

lemma lookup_collect (X : String) :
    ∀ (m : List (String × ℚ)) (acc : List (String × List ℚ)),
      List.lookup X (m.foldl (fun a q => addToGroup a q.1 q.2) acc) =
        match List.lookup X acc with
        | some g => some (g ++ (m.filter (fun q => q.1 = X)).map Prod.snd)
        | none =>
          if (m.filter (fun q => q.1 = X)) = [] then none
          else some ((m.filter (fun q => q.1 = X)).map Prod.snd) := by
  intro m
  induction m with
  | nil =>
    intro acc
    cases h : List.lookup X acc with
    | none => simp [h, List.filter]
    | some g => simp [h, List.filter]
  | cons q rest ih =>
    intro acc
    rw [List.foldl_cons, ih (addToGroup acc q.1 q.2), lookup_addToGroup]
    by_cases hqX : q.1 = X
    · have hXq : X = q.1 := hqX.symm
      rw [if_pos hXq]
      have hfil : (q :: rest).filter (fun p => p.1 = X) =
          q :: rest.filter (fun p => p.1 = X) := by
        simp [List.filter_cons, hqX]
      cases h : List.lookup X acc with
      | none => simp [h, hfil]
      | some g => simp [h, hfil]
    · have hXq : ¬(X = q.1) := fun hc => hqX hc.symm
      rw [if_neg hXq]
      have hfil : (q :: rest).filter (fun p => p.1 = X) =
          rest.filter (fun p => p.1 = X) := by
        simp [List.filter_cons, hqX]
      rw [hfil]

lemma addToGroup_keys_eq {β : Type} (k : String) (v : β) :
    ∀ (d : List (String × List β)),
      (addToGroup d k v).map Prod.fst =
        if k ∈ d.map Prod.fst then d.map Prod.fst else d.map Prod.fst ++ [k] := by
  intro d
  induction d with
  | nil => simp [addToGroup]
  | cons q rest ih =>
    obtain ⟨a, vs⟩ := q
    by_cases hak : a = k
    · rw [addToGroup, if_pos hak]
      have : k ∈ ((a, vs) :: rest).map Prod.fst := by
        rw [List.map_cons]
        exact hak ▸ List.mem_cons_self _ _
      rw [if_pos this]
      simp
    · rw [addToGroup, if_neg hak]
      rw [List.map_cons, List.map_cons, ih]
      by_cases hk : k ∈ rest.map Prod.fst
      · rw [if_pos hk, if_pos (List.mem_cons_of_mem _ hk)]
      · rw [if_neg hk, if_neg ?_]
        · simp
        · intro hc
          rcases List.mem_cons.1 hc with h | h
          · exact hak h.symm
          · exact hk h

lemma addToGroup_keys_nodup {β : Type} (d : List (String × List β)) (k : String) (v : β)
    (h : (d.map Prod.fst).Nodup) : ((addToGroup d k v).map Prod.fst).Nodup := by
  rw [addToGroup_keys_eq]
  by_cases hk : k ∈ d.map Prod.fst
  · rw [if_pos hk]; exact h
  · rw [if_neg hk]
    rw [List.nodup_append]
    exact ⟨h, List.nodup_singleton k, by simpa using hk⟩

lemma foldl_addToGroup_pairs_nodup :
    ∀ (m : List (String × ℚ)) (acc : List (String × List ℚ)),
      (acc.map Prod.fst).Nodup →
      (((m.foldl (fun a q => addToGroup a q.1 q.2) acc)).map Prod.fst).Nodup := by
  intro m
  induction m with
  | nil => intro acc h; exact h
  | cons q rest ih =>
    intro acc h
    exact ih (addToGroup acc q.1 q.2) (addToGroup_keys_nodup acc q.1 q.2 h)

lemma foldl_addToGroup_entries_nodup (entries : List Entry) (cm : List (String × String))
    (inv : List String) :
    ((build_canonical_avg entries cm inv).map Prod.fst).Nodup := by
  have main : ∀ (es : List Entry) (acc : List (String × List ℚ)),
      (acc.map Prod.fst).Nodup →
      (((es.foldl (fun acc entry =>
        if entry.invalid then acc
        else if entry.removed_for ≠ "" then acc
        else
          let seq := strip entry.seq
          if seq = "" then acc
          else
            let canonical := (List.lookup seq cm).getD seq
            if canonical ∈ inv then acc
            else addToGroup acc canonical entry.elo) acc)).map Prod.fst).Nodup := by
    intro es
    induction es with
    | nil => intro acc h; exact h
    | cons e rest ih =>
      intro acc h
      apply ih
      dsimp only
      by_cases h1 : e.invalid = true
      · rw [if_pos h1]; exact h
      · rw [if_neg h1]
        by_cases h2 : e.removed_for ≠ ""
        · rw [if_pos h2]; exact h
        · rw [if_neg h2]
          by_cases h3 : strip e.seq = ""
          · rw [if_pos h3]; exact h
          · rw [if_neg h3]
            by_cases h4 : (List.lookup (strip e.seq) cm).getD (strip e.seq) ∈ inv
            · rw [if_pos h4]; exact h
            · rw [if_neg h4]
              exact addToGroup_keys_nodup acc _ e.elo h
  have hgroups := main entries [] (by simp)
  unfold build_canonical_avg
  have hkeys : (((entries.foldl (fun acc entry =>
      if entry.invalid then acc
      else if entry.removed_for ≠ "" then acc
      else
        let seq := strip entry.seq
        if seq = "" then acc
        else
          let canonical := (List.lookup seq cm).getD seq
          if canonical ∈ inv then acc
          else addToGroup acc canonical entry.elo) []).filter
      (fun g => ¬g.2 = [])).map Prod.fst).Sublist
      ((entries.foldl (fun acc entry =>
        if entry.invalid then acc
        else if entry.removed_for ≠ "" then acc
        else
          let seq := strip entry.seq
          if seq = "" then acc
          else
            let canonical := (List.lookup seq cm).getD seq
            if canonical ∈ inv then acc
            else addToGroup acc canonical entry.elo) []).map Prod.fst) :=
    List.Sublist.map Prod.fst (List.filter_sublist _)
  have hnodup := List.Nodup.sublist hkeys hgroups
  have hmapeq : ∀ (l : List (String × List ℚ)),
      ((l.map (fun g => (g.1, mean g.2))).map Prod.fst) = l.map Prod.fst := by
    intro l
    rw [List.map_map]
    rfl
  rw [← hmapeq] at hnodup
  exact hnodup

lemma lookup_map_value {β γ : Type} (X : String) (f : β → γ) :
    ∀ (l : List (String × β)),
      List.lookup X (l.map (fun g => (g.1, f g.2))) = (List.lookup X l).map f := by
  intro l
  induction l with
  | nil => rfl
  | cons q rest ih =>
    by_cases hq : X = q.1
    · rw [List.map_cons, List.lookup_cons, List.lookup_cons, beq_iff_eq.2 hq]
      rfl
    · rw [List.map_cons, List.lookup_cons, List.lookup_cons, beq_eq_false_iff_ne.2 hq]
      exact ih

lemma filter_vals_of_nodup {X : String} :
    ∀ {m : List (String × ℚ)}, ((m.map Prod.fst).Nodup) →
      (m.filter (fun q => q.1 = X)).map Prod.snd =
        (match List.lookup X m with | some v => [v] | none => []) := by
  intro m
  induction m with
  | nil => intro _; rfl
  | cons q rest ih =>
    intro h
    rw [List.map_cons] at h
    obtain ⟨hq, hrest⟩ := List.nodup_cons.1 h
    by_cases hqX : q.1 = X
    · have hrestfil : rest.filter (fun p => p.1 = X) = [] := by
        rw [List.filter_eq_nil_iff]
        intro p hp
        simp only [decide_eq_true_eq]
        intro hc
        exact hq (by rw [hqX, ← hc]; exact List.mem_map_of_mem Prod.fst hp)
      rw [List.filter_cons, if_pos (by simpa using hqX), List.map_cons, hrestfil,
        List.lookup_cons, beq_iff_eq.2 hqX.symm]
      rfl
    · rw [List.filter_cons, if_neg (by simpa using hqX), List.lookup_cons,
        beq_eq_false_iff_ne.2 (fun hc => hqX hc.symm)]
      exact ih hrest

lemma foldl_addToGroup_pairs_ne_nil :
    ∀ (m : List (String × ℚ)) (acc : List (String × List ℚ)),
      (∀ p ∈ acc, p.2 ≠ []) →
      ∀ p ∈ m.foldl (fun a q => addToGroup a q.1 q.2) acc, p.2 ≠ [] := by
  intro m
  induction m with
  | nil => intro acc h; exact h
  | cons q rest ih =>
    intro acc h
    exact ih (addToGroup acc q.1 q.2) (addToGroup_entries_ne_nil acc q.1 q.2 h)

end CapableExp

namespace CapableExp

/-! ## Facts about the `build_plot_data` loop -/

lemma plotStep_missing_examples (cm : List (String × String)) (inv : List String)
    (avg : List (String × ℚ)) (t : Bool) (st : PlotState) (row : String × Option Int) :
    (plotStep cm inv avg t st row).missing_examples = st.missing_examples ∨
      (st.missing_examples.length < 10 ∧
        (plotStep cm inv avg t st row).missing_examples =
          st.missing_examples ++ [(row.1, (List.lookup row.1 cm).getD row.1)]) := by
  obtain ⟨p, n⟩ := row
  unfold plotStep
  dsimp only
  by_cases hp : p = ""
  · rw [if_pos hp]
    exact Or.inl rfl
  · rw [if_neg hp]
    by_cases hinv : (List.lookup p cm).getD p ∈ inv
    · cases n <;> simp [hinv]
    · cases hl : List.lookup ((List.lookup p cm).getD p) avg with
      | none =>
        cases t with
        | false => cases n <;> simp [hinv, hl]
        | true =>
          by_cases hlen : st.missing_examples.length < 10
          · cases n <;> simp [hinv, hl, hlen]
          · cases n <;> simp [hinv, hl, hlen]
      | some v =>
        cases n <;> simp [hinv, hl]
  
lemma plotStep_missing_total (cm : List (String × String)) (inv : List String)
    (avg : List (String × ℚ)) (t : Bool) (st : PlotState) (row : String × Option Int) :
    (plotStep cm inv avg t st row).missing_total = st.missing_total +
      (if row.1 ≠ "" ∧ (List.lookup row.1 cm).getD row.1 ∉ inv ∧
          List.lookup ((List.lookup row.1 cm).getD row.1) avg = none then 1 else 0) := by
  obtain ⟨p, n⟩ := row
  unfold plotStep
  dsimp only
  by_cases hp : p = ""
  · rw [if_pos hp]
    simp [hp]
  · rw [if_neg hp]
    by_cases hinv : (List.lookup p cm).getD p ∈ inv
    · cases n <;> simp [hp, hinv]
    · cases hl : List.lookup ((List.lookup p cm).getD p) avg with
      | none =>
        cases t with
        | false => cases n <;> simp [hp, hinv, hl]
        | true =>
          by_cases hlen : st.missing_examples.length < 10
          · cases n <;> simp [hp, hinv, hl, hlen]
          · cases n <;> simp [hp, hinv, hl, hlen]
      | some v =>
        cases n <;> simp [hp, hinv, hl]

end CapableExp

namespace CapableExp

lemma foldl_plotStep_missing_le (cm : List (String × String)) (inv : List String)
    (avg : List (String × ℚ)) (t : Bool) :
    ∀ (rows : List (String × Option Int)) (st : PlotState),
      st.missing_examples.length ≤ 10 →
      ((rows.foldl (plotStep cm inv avg t) st).missing_examples).length ≤ 10 := by
  intro rows
  induction rows with
  | nil => intro st h; exact h
  | cons row rest ih =>
    intro st h
    rw [List.foldl_cons]
    apply ih
    rcases plotStep_missing_examples cm inv avg t st row with heq | ⟨hlt, heq⟩
    · rw [heq]; exact h
    · rw [heq, List.length_append]
      simp only [List.length_singleton]
      omega

lemma foldl_plotStep_missing_total (cm : List (String × String)) (inv : List String)
    (avg : List (String × ℚ)) (t : Bool) :
    ∀ (rows : List (String × Option Int)) (st : PlotState),
      (rows.foldl (plotStep cm inv avg t) st).missing_total =
        st.missing_total + (rows.filter (fun row => row.1 ≠ "" ∧
          (List.lookup row.1 cm).getD row.1 ∉ inv ∧
          List.lookup ((List.lookup row.1 cm).getD row.1) avg = none)).length := by
  intro rows
  induction rows with
  | nil => intro st; simp [List.filter]
  | cons row rest ih =>
    intro st
    rw [List.foldl_cons, ih (plotStep cm inv avg t st row), plotStep_missing_total,
      List.filter_cons]
    by_cases hP : row.1 ≠ "" ∧ (List.lookup row.1 cm).getD row.1 ∉ inv ∧
        List.lookup ((List.lookup row.1 cm).getD row.1) avg = none
    · rw [if_pos hP, if_pos (decide_eq_true hP)]
      simp [Nat.add_assoc, Nat.add_comm 1]
    · rw [if_neg hP, if_neg (by simpa using hP)]
      simp

end CapableExp

namespace CapableExp

lemma plotStep_false_missing_fields (cm : List (String × String)) (inv : List String)
    (avg : List (String × ℚ)) (st : PlotState) (row : String × Option Int) :
    (plotStep cm inv avg false st row).missing_examples = st.missing_examples ∧
      (plotStep cm inv avg false st row).missing_by_canonical = st.missing_by_canonical := by
  obtain ⟨p, n⟩ := row
  unfold plotStep
  dsimp only
  by_cases hp : p = ""
  · rw [if_pos hp]
    exact ⟨rfl, rfl⟩
  · rw [if_neg hp]
    by_cases hinv : (List.lookup p cm).getD p ∈ inv
    · cases n <;> simp [hinv]
    · cases hl : List.lookup ((List.lookup p cm).getD p) avg with
      | none => cases n <;> simp [hinv, hl]
      | some v => cases n <;> simp [hinv, hl]

lemma plotStep_track_shared (cm : List (String × String)) (inv : List String)
    (avg : List (String × ℚ)) (st₁ st₂ : PlotState) (row : String × Option Int)
    (h1 : st₁.n_results_values = st₂.n_results_values)
    (h2 : st₁.avg_elos = st₂.avg_elos)
    (h3 : st₁.baseline_seqs = st₂.baseline_seqs)
    (h4 : st₁.numeric_rows = st₂.numeric_rows)
    (h5 : st₁.numeric_peptides = st₂.numeric_peptides)
    (h6 : st₁.numeric_with_elo = st₂.numeric_with_elo)
    (h7 : st₁.missing_total = st₂.missing_total) :
    (plotStep cm inv avg true st₁ row).n_results_values =
        (plotStep cm inv avg false st₂ row).n_results_values ∧
      (plotStep cm inv avg true st₁ row).avg_elos =
        (plotStep cm inv avg false st₂ row).avg_elos ∧
      (plotStep cm inv avg true st₁ row).baseline_seqs =
        (plotStep cm inv avg false st₂ row).baseline_seqs ∧
      (plotStep cm inv avg true st₁ row).numeric_rows =
        (plotStep cm inv avg false st₂ row).numeric_rows ∧
      (plotStep cm inv avg true st₁ row).numeric_peptides =
        (plotStep cm inv avg false st₂ row).numeric_peptides ∧
      (plotStep cm inv avg true st₁ row).numeric_with_elo =
        (plotStep cm inv avg false st₂ row).numeric_with_elo ∧
      (plotStep cm inv avg true st₁ row).missing_total =
        (plotStep cm inv avg false st₂ row).missing_total := by
  obtain ⟨p, n⟩ := row
  unfold plotStep
  dsimp only
  by_cases hp : p = ""
  · rw [if_pos hp, if_pos hp]
    exact ⟨h1, h2, h3, h4, h5, h6, h7⟩
  · rw [if_neg hp, if_neg hp]
    by_cases hinv : (List.lookup p cm).getD p ∈ inv
    · cases n <;> simp [hinv, h1, h2, h3, h4, h5, h6, h7]
    · cases hl : List.lookup ((List.lookup p cm).getD p) avg with
      | none =>
        by_cases hlen : st₁.missing_examples.length < 10
        · cases n <;> simp [hinv, hl, hlen, h1, h2, h3, h4, h5, h6, h7]
        · cases n <;> simp [hinv, hl, hlen, h1, h2, h3, h4, h5, h6, h7]
      | some v => cases n <;> simp [hinv, hl, h1, h2, h3, h4, h5, h6, h7]

lemma foldl_plotStep_track (cm : List (String × String)) (inv : List String)
    (avg : List (String × ℚ)) :
    ∀ (rows : List (String × Option Int)) (st₁ st₂ : PlotState),
      st₁.n_results_values = st₂.n_results_values →
      st₁.avg_elos = st₂.avg_elos →
      st₁.baseline_seqs = st₂.baseline_seqs →
      st₁.numeric_rows = st₂.numeric_rows →
      st₁.numeric_peptides = st₂.numeric_peptides →
      st₁.numeric_with_elo = st₂.numeric_with_elo →
      st₁.missing_total = st₂.missing_total →
      (rows.foldl (plotStep cm inv avg true) st₁).n_results_values =
          (rows.foldl (plotStep cm inv avg false) st₂).n_results_values ∧
        (rows.foldl (plotStep cm inv avg true) st₁).avg_elos =
          (rows.foldl (plotStep cm inv avg false) st₂).avg_elos ∧
        (rows.foldl (plotStep cm inv avg true) st₁).baseline_seqs =
          (rows.foldl (plotStep cm inv avg false) st₂).baseline_seqs ∧
        (rows.foldl (plotStep cm inv avg true) st₁).numeric_rows =
          (rows.foldl (plotStep cm inv avg false) st₂).numeric_rows ∧
        (rows.foldl (plotStep cm inv avg true) st₁).numeric_peptides =
          (rows.foldl (plotStep cm inv avg false) st₂).numeric_peptides ∧
        (rows.foldl (plotStep cm inv avg true) st₁).numeric_with_elo =
          (rows.foldl (plotStep cm inv avg false) st₂).numeric_with_elo ∧
        (rows.foldl (plotStep cm inv avg true) st₁).missing_total =
          (rows.foldl (plotStep cm inv avg false) st₂).missing_total := by
  intro rows
  induction rows with
  | nil => intro st₁ st₂ h1 h2 h3 h4 h5 h6 h7; exact ⟨h1, h2, h3, h4, h5, h6, h7⟩
  | cons row rest ih =>
    intro st₁ st₂ h1 h2 h3 h4 h5 h6 h7
    rw [List.foldl_cons, List.foldl_cons]
    obtain ⟨g1, g2, g3, g4, g5, g6, g7⟩ :=
      plotStep_track_shared cm inv avg st₁ st₂ row h1 h2 h3 h4 h5 h6 h7
    exact ih (plotStep cm inv avg true st₁ row) (plotStep cm inv avg false st₂ row)
      g1 g2 g3 g4 g5 g6 g7

lemma foldl_plotStep_false_missing (cm : List (String × String)) (inv : List String)
    (avg : List (String × ℚ)) :
    ∀ (rows : List (String × Option Int)) (st : PlotState),
      (rows.foldl (plotStep cm inv avg false) st).missing_examples = st.missing_examples ∧
        (rows.foldl (plotStep cm inv avg false) st).missing_by_canonical =
          st.missing_by_canonical := by
  intro rows
  induction rows with
  | nil => intro st; exact ⟨rfl, rfl⟩
  | cons row rest ih =>
    intro st
    rw [List.foldl_cons]
    obtain ⟨ha, hb⟩ := ih (plotStep cm inv avg false st row)
    obtain ⟨hc, hd⟩ := plotStep_false_missing_fields cm inv avg st row
    exact ⟨ha.trans hc, hb.trans hd⟩

end CapableExp

namespace CapableExp

/-! ## The claims -/

/-- C1, counterexample to the claim as stated: `build_canonical_map` builds
its `parent` dict only over the identifier set, so an edge mentioning an
identifier outside the set (here `"B"`) makes `find` raise `KeyError`
(modelled by `none`); the resolver does not auto-register edge-only
identifiers itself — its callers do. -/
theorem C1_counterexample_resolver_raises :
    build_canonical_map ["A"] [("B", "A")] = none := by rfl

/-- C1 (amended): provided every identifier mentioned in an edge belongs to
the identifier set — which the callers `read_rankings` guarantee by adding
both edge endpoints to `sequences` — the resolver returns a mapping without
raising; duplicate edges, self-loop edges and edges among already-merged
identifiers are handled as no-ops or benign unions. -/
theorem C1_resolver_total (ids : List String) (edges : List (String × String))
    (hcov : EdgesCovered ids edges) : (build_canonical_map ids edges).isSome := by
  obtain ⟨c, heq, -⟩ := build_canonical_map_spec hcov
  rw [heq]
  rfl

/-- C1 witness: a concrete run with a duplicate edge, a self-loop edge and an
edge between already-united identifiers. -/
theorem C1_resolver_total_witness :
    EdgesCovered ["A", "B"] [("B", "A"), ("B", "A"), ("A", "A"), ("B", "B")] ∧
      (build_canonical_map ["A", "B"] [("B", "A"), ("B", "A"), ("A", "A"), ("B", "B")]).isSome :=
  ⟨by decide, C1_resolver_total _ _ (by decide)⟩

/-- C2: for every equivalence group produced by the resolver (the fiber of
the returned mapping), the canonical identifier is the lexicographically
smallest member that never appears as the child (`left`) of an edge, and
if all members appear as children, the lexicographically smallest member
overall. -/
theorem C2_canonical_selection (ids : List String) (edges : List (String × String))
    (m : List (String × String)) (x c : String)
    (hcov : EdgesCovered ids edges)
    (hm : build_canonical_map ids edges = some m)
    (hx : x ∈ ids) (hc : List.lookup x m = some c) :
    c ∈ ids.filter (fun y => List.lookup y m = some c) ∧
    ((ids.filter (fun y => List.lookup y m = some c)).filter
        (fun y => y ∉ childList edges) ≠ [] →
      c ∉ childList edges ∧
        ∀ y ∈ (ids.filter (fun y => List.lookup y m = some c)).filter
          (fun y => y ∉ childList edges), c ≤ y) ∧
    ((ids.filter (fun y => List.lookup y m = some c)).filter
        (fun y => y ∉ childList edges) = [] →
      ∀ y ∈ ids.filter (fun y => List.lookup y m = some c), c ≤ y) := by
  obtain ⟨c₀, heq, hprops⟩ := build_canonical_map_spec hcov
  rw [heq] at hm
  have hm' : m = ids.map (fun s => (s, c₀ s)) := (Option.some.inj hm).symm
  subst hm'
  rw [lookup_map_self c₀ ids hx] at hc
  have hcx : c = c₀ x := (Option.some.inj hc).symm
  subst hcx
  obtain ⟨⟨hcids, hclink⟩, hconst, hiii, hiv⟩ := hprops x hx
  have hfib : ∀ y, y ∈ ids.filter
      (fun y => List.lookup y (ids.map (fun s => (s, c₀ s))) = some (c₀ x)) ↔
      (y ∈ ids ∧ Linked edges x y) := by
    intro y
    rw [List.mem_filter]
    constructor
    · rintro ⟨hy, hdec⟩
      have hlook : List.lookup y (ids.map (fun s => (s, c₀ s))) = some (c₀ x) :=
        of_decide_eq_true hdec
      rw [lookup_map_self c₀ ids hy] at hlook
      have hcy : c₀ y = c₀ x := Option.some.inj hlook
      obtain ⟨⟨-, hylink⟩, -, -, -⟩ := hprops y hy
      refine ⟨hy, ?_⟩
      rw [hcy] at hylink
      exact Relation.EqvGen.trans x (c₀ x) y hclink (Relation.EqvGen.symm _ _ hylink)
    · rintro ⟨hy, hlink⟩
      refine ⟨hy, decide_eq_true ?_⟩
      rw [lookup_map_self c₀ ids hy, hconst y hy hlink]
  refine ⟨?_, ?_, ?_⟩
  · rw [hfib (c₀ x)]
    exact ⟨hcids, hclink⟩
  · intro hne
    obtain ⟨z, hz⟩ := List.exists_mem_of_ne_nil _ hne
    obtain ⟨hzfib, hznc⟩ := List.mem_filter.1 hz
    obtain ⟨hzids, hzlink⟩ := (hfib z).1 hzfib
    obtain ⟨hcnc, hcmin⟩ := hiii ⟨z, hzids, hzlink, of_decide_eq_true hznc⟩
    refine ⟨hcnc, ?_⟩
    intro y hy
    obtain ⟨hyfib, hync⟩ := List.mem_filter.1 hy
    obtain ⟨hyids, hylink⟩ := (hfib y).1 hyfib
    exact hcmin y hyids hylink (of_decide_eq_true hync)
  · intro hnil
    intro y hy
    obtain ⟨hyids, hylink⟩ := (hfib y).1 hy
    have hall : ∀ z, z ∈ ids → Linked edges x z → z ∈ childList edges := by
      intro z hzids hzlink
      by_contra hznc
      have hzfib : z ∈ (ids.filter (fun y =>
          List.lookup y (ids.map (fun s => (s, c₀ s))) = some (c₀ x))).filter
          (fun y => y ∉ childList edges) :=
        List.mem_filter.2 ⟨(hfib z).2 ⟨hzids, hzlink⟩, decide_eq_true hznc⟩
      rw [hnil] at hzfib
      exact absurd hzfib (List.not_mem_nil z)
    exact hiv hall y hyids hylink

/-- C2 witness: the concrete two-identifier run with edge `(B, A)`; group of
`"B"` is `{"A","B"}`, non-child member `"A"` is canonical. -/
theorem C2_canonical_selection_witness :
    "A" ∈ (["A", "B"].filter
        (fun y => List.lookup y [("A", "A"), ("B", "A")] = some "A")) ∧
    (((["A", "B"].filter (fun y => List.lookup y [("A", "A"), ("B", "A")] = some "A")).filter
        (fun y => y ∉ childList [("B", "A")]) ≠ []) →
      "A" ∉ childList [("B", "A")] ∧
        ∀ y ∈ (["A", "B"].filter
            (fun y => List.lookup y [("A", "A"), ("B", "A")] = some "A")).filter
          (fun y => y ∉ childList [("B", "A")]), "A" ≤ y) ∧
    (((["A", "B"].filter (fun y => List.lookup y [("A", "A"), ("B", "A")] = some "A")).filter
        (fun y => y ∉ childList [("B", "A")]) = []) →
      ∀ y ∈ ["A", "B"].filter
        (fun y => List.lookup y [("A", "A"), ("B", "A")] = some "A"), "A" ≤ y) :=
  C2_canonical_selection ["A", "B"] [("B", "A")] [("A", "A"), ("B", "A")] "B" "A"
    (by decide) (by decide) (by decide) (by decide)

/-- C6: the mapping is independent of edge insertion order — for any
permutation of the edge list the resolver returns the same mapping — and
resolving the same input twice yields structurally identical mappings
(the embedding is a pure function, so the second conjunct is definitional
determinism). -/
theorem C6_edge_order_independent (ids : List String) (edges edges' : List (String × String))
    (hcov : EdgesCovered ids edges) (hperm : edges.Perm edges') :
    build_canonical_map ids edges = build_canonical_map ids edges' ∧
      build_canonical_map ids edges = build_canonical_map ids edges := by
  have hcov' : EdgesCovered ids edges' := fun e he => hcov e (hperm.mem_iff.2 he)
  obtain ⟨c₁, heq₁, hp₁⟩ := build_canonical_map_spec hcov
  obtain ⟨c₂, heq₂, hp₂⟩ := build_canonical_map_spec hcov'
  have hLiff : ∀ x y, Linked edges x y ↔ Linked edges' x y := by
    intro x y
    unfold Linked
    apply eqvgen_congr
    · intro u v huv
      exact Relation.EqvGen.rel u v (hperm.mem_iff.1 huv)
    · intro u v huv
      exact Relation.EqvGen.rel u v (hperm.mem_iff.2 huv)
  have hCiff : ∀ y, y ∈ childList edges ↔ y ∈ childList edges' :=
    fun y => (hperm.map Prod.fst).mem_iff
  have hpt : ∀ x ∈ ids, c₁ x = c₂ x := by
    intro x hx
    obtain ⟨⟨hc1ids, hc1link⟩, hconst1, hiii1, hiv1⟩ := hp₁ x hx
    obtain ⟨⟨hc2ids, hc2link⟩, hconst2, hiii2, hiv2⟩ := hp₂ x hx
    by_cases hex : ∃ y, y ∈ ids ∧ Linked edges x y ∧ y ∉ childList edges
    · obtain ⟨hnc1, hmin1⟩ := hiii1 hex
      have hex' : ∃ y, y ∈ ids ∧ Linked edges' x y ∧ y ∉ childList edges' := by
        obtain ⟨y, hy1, hy2, hy3⟩ := hex
        exact ⟨y, hy1, (hLiff x y).1 hy2, fun hcon => hy3 ((hCiff y).2 hcon)⟩
      obtain ⟨hnc2, hmin2⟩ := hiii2 hex'
      apply le_antisymm
      · exact hmin1 (c₂ x) hc2ids ((hLiff x (c₂ x)).2 hc2link)
          (fun hcon => hnc2 ((hCiff (c₂ x)).1 hcon))
      · exact hmin2 (c₁ x) hc1ids ((hLiff x (c₁ x)).1 hc1link)
          (fun hcon => hnc1 ((hCiff (c₁ x)).2 hcon))
    · have hall : ∀ y, y ∈ ids → Linked edges x y → y ∈ childList edges := by
        intro y hy hl
        by_contra hnc
        exact hex ⟨y, hy, hl, hnc⟩
      have hall' : ∀ y, y ∈ ids → Linked edges' x y → y ∈ childList edges' := by
        intro y hy hl
        exact (hCiff y).1 (hall y hy ((hLiff x y).2 hl))
      apply le_antisymm
      · exact hiv1 hall (c₂ x) hc2ids ((hLiff x (c₂ x)).2 hc2link)
      · exact hiv2 hall' (c₁ x) hc1ids ((hLiff x (c₁ x)).1 hc1link)
  refine ⟨?_, rfl⟩
  rw [heq₁, heq₂]
  exact congrArg some (List.map_congr_left (fun s hs => by rw [hpt s hs]))

/-- C6 witness: a concrete permutation of a two-edge list. -/
theorem C6_edge_order_independent_witness :
    build_canonical_map ["C", "A", "B"] [("C", "B"), ("B", "A")] =
        build_canonical_map ["C", "A", "B"] [("B", "A"), ("C", "B")] ∧
      build_canonical_map ["C", "A", "B"] [("C", "B"), ("B", "A")] =
        build_canonical_map ["C", "A", "B"] [("C", "B"), ("B", "A")] :=
  C6_edge_order_independent ["C", "A", "B"] [("C", "B"), ("B", "A")]
    [("B", "A"), ("C", "B")] (by decide) (by decide)

/-- C8: identifiers connected (directly or transitively) by merge edges
receive the same canonical identifier, and every identifier of the input
set appears in the mapping with exactly one canonical value. -/
theorem C8_group_consistency (ids : List String) (edges : List (String × String))
    (m : List (String × String)) (hcov : EdgesCovered ids edges)
    (hm : build_canonical_map ids edges = some m) :
    (∀ a ∈ ids, ∀ b ∈ ids, Linked edges a b → List.lookup a m = List.lookup b m) ∧
      ∀ x ∈ ids, ∃ c, List.lookup x m = some c := by
  obtain ⟨c₀, heq, hprops⟩ := build_canonical_map_spec hcov
  rw [heq] at hm
  have hm' : m = ids.map (fun s => (s, c₀ s)) := (Option.some.inj hm).symm
  subst hm'
  constructor
  · intro a ha b hb hab
    rw [lookup_map_self c₀ ids ha, lookup_map_self c₀ ids hb,
      (hprops a ha).2.1 b hb hab]
  · intro x hx
    exact ⟨c₀ x, lookup_map_self c₀ ids hx⟩

/-- C8 witness: `"B"` and `"A"` linked by the single edge `(B, A)` map to the
same canonical identifier, and both identifiers have a mapping. -/
theorem C8_group_consistency_witness :
    (∀ a ∈ ["A", "B"], ∀ b ∈ ["A", "B"], Linked [("B", "A")] a b →
      List.lookup a [("A", "A"), ("B", "A")] = List.lookup b [("A", "A"), ("B", "A")]) ∧
      ∀ x ∈ ["A", "B"], ∃ c, List.lookup x [("A", "A"), ("B", "A")] = some c :=
  C8_group_consistency ["A", "B"] [("B", "A")] [("A", "A"), ("B", "A")]
    (by decide) (by decide)

/-- C9: canonicalization is idempotent — every canonical identifier in the
mapping's range maps to itself, hence `mapping[mapping[x]] = mapping[x]`. -/
theorem C9_idempotent (ids : List String) (edges : List (String × String))
    (m : List (String × String)) (hcov : EdgesCovered ids edges)
    (hm : build_canonical_map ids edges = some m) :
    ∀ x c, List.lookup x m = some c → List.lookup c m = some c := by
  obtain ⟨c₀, heq, hprops⟩ := build_canonical_map_spec hcov
  rw [heq] at hm
  have hm' : m = ids.map (fun s => (s, c₀ s)) := (Option.some.inj hm).symm
  subst hm'
  intro x c hc
  by_cases hx : x ∈ ids
  · rw [lookup_map_self c₀ ids hx] at hc
    have hcx : c = c₀ x := (Option.some.inj hc).symm
    subst hcx
    obtain ⟨⟨hcids, hclink⟩, hconst, -, -⟩ := hprops x hx
    rw [lookup_map_self c₀ ids hcids, hconst (c₀ x) hcids hclink]
  · rw [lookup_map_none c₀ ids hx] at hc
    cases hc

/-- C9 witness: `"B"` maps to `"A"`, and `"A"` maps to itself. -/
theorem C9_idempotent_witness :
    List.lookup "A" [("A", "A"), ("B", "A")] = some "A" :=
  C9_idempotent ["A", "B"] [("B", "A")] [("A", "A"), ("B", "A")]
    (by decide) (by decide) "B" "A" (by decide)

end CapableExp

namespace CapableExp

lemma bca_step_skip (cm : List (String × String)) (inv : List String) (e : Entry)
    (hrem : e.removed_for ≠ "") (acc : List (String × List ℚ)) :
    (if e.invalid then acc
     else if e.removed_for ≠ "" then acc
     else
       let seq := strip e.seq
       if seq = "" then acc
       else
         let canonical := (List.lookup seq cm).getD seq
         if canonical ∈ inv then acc
         else addToGroup acc canonical e.elo) = acc := by
  by_cases h1 : e.invalid = true
  · rw [if_pos h1]
  · rw [if_neg h1, if_pos hrem]

/-- C3: the combined aggregate is the arithmetic mean of the per-source
means, one equal weight per source regardless of how many raw records each
source contributed (the entry lists `e1`, `e2` are arbitrary); in
particular, per-source means `1500` and `1600` combine to exactly `1550`,
not a pooled mean. -/
theorem C3_equal_weight_per_source :
    (∀ (cm : List (String × String)) (inv : List String) (e1 e2 : List Entry)
        (X : String) (r1 r2 : ℚ),
      List.lookup X (build_canonical_avg e1 cm inv) = some r1 →
      List.lookup X (build_canonical_avg e2 cm inv) = some r2 →
      List.lookup X (combined_avg [("source1", build_canonical_avg e1 cm inv),
        ("source2", build_canonical_avg e2 cm inv)]) = some ((r1 + r2) / 2)) ∧
    (∀ (cm : List (String × String)) (inv : List String) (e1 e2 : List Entry) (X : String),
      List.lookup X (build_canonical_avg e1 cm inv) = some 1500 →
      List.lookup X (build_canonical_avg e2 cm inv) = some 1600 →
      List.lookup X (combined_avg [("source1", build_canonical_avg e1 cm inv),
        ("source2", build_canonical_avg e2 cm inv)]) = some 1550) := by
  have main : ∀ (cm : List (String × String)) (inv : List String) (e1 e2 : List Entry)
      (X : String) (r1 r2 : ℚ),
      List.lookup X (build_canonical_avg e1 cm inv) = some r1 →
      List.lookup X (build_canonical_avg e2 cm inv) = some r2 →
      List.lookup X (combined_avg [("source1", build_canonical_avg e1 cm inv),
        ("source2", build_canonical_avg e2 cm inv)]) = some ((r1 + r2) / 2) := by
    intro cm inv e1 e2 X r1 r2 h1 h2
    have hn1 : ((build_canonical_avg e1 cm inv).map Prod.fst).Nodup :=
      foldl_addToGroup_entries_nodup e1 cm inv
    have hn2 : ((build_canonical_avg e2 cm inv).map Prod.fst).Nodup :=
      foldl_addToGroup_entries_nodup e2 cm inv
    have hv1 : ((build_canonical_avg e1 cm inv).filter (fun q => q.1 = X)).map Prod.snd
        = [r1] := by
      rw [filter_vals_of_nodup hn1, h1]
    have hv2 : ((build_canonical_avg e2 cm inv).filter (fun q => q.1 = X)).map Prod.snd
        = [r2] := by
      rw [filter_vals_of_nodup hn2, h2]
    have hf1ne : (build_canonical_avg e1 cm inv).filter (fun q => q.1 = X) ≠ [] := by
      intro hc
      rw [hc] at hv1
      exact absurd hv1 (by simp)
    have hlk1 : List.lookup X ((build_canonical_avg e1 cm inv).foldl
        (fun a q => addToGroup a q.1 q.2) []) = some [r1] := by
      rw [lookup_collect X (build_canonical_avg e1 cm inv) []]
      show (if (build_canonical_avg e1 cm inv).filter (fun q => q.1 = X) = [] then none
        else some (((build_canonical_avg e1 cm inv).filter (fun q => q.1 = X)).map
          Prod.snd)) = some [r1]
      rw [if_neg hf1ne, hv1]
    have hlk2 : List.lookup X ((build_canonical_avg e2 cm inv).foldl
        (fun a q => addToGroup a q.1 q.2) ((build_canonical_avg e1 cm inv).foldl
          (fun a q => addToGroup a q.1 q.2) [])) = some [r1, r2] := by
      rw [lookup_collect X (build_canonical_avg e2 cm inv) _, hlk1]
      show some ([r1] ++ ((build_canonical_avg e2 cm inv).filter
        (fun q => q.1 = X)).map Prod.snd) = some [r1, r2]
      rw [hv2]
      rfl
    have hne : ∀ p ∈ (build_canonical_avg e2 cm inv).foldl
        (fun a q => addToGroup a q.1 q.2) ((build_canonical_avg e1 cm inv).foldl
          (fun a q => addToGroup a q.1 q.2) []), p.2 ≠ [] :=
      foldl_addToGroup_pairs_ne_nil _ _
        (foldl_addToGroup_pairs_ne_nil _ []
          (fun p hp => absurd hp (List.not_mem_nil p)))
    unfold combined_avg
    dsimp only
    rw [List.foldl_cons, List.foldl_cons, List.foldl_nil]
    rw [List.filter_eq_self.2 (fun p hp => decide_eq_true (hne p hp))]
    rw [lookup_map_value X mean _, hlk2]
    show some (mean [r1, r2]) = some ((r1 + r2) / 2)
    norm_num [mean]
  refine ⟨main, ?_⟩
  intro cm inv e1 e2 X h1 h2
  rw [main cm inv e1 e2 X 1500 1600 h1 h2]
  norm_num

/-- C3 witness: one raw record per source with scores 1500 and 1600; the
combined map carries exactly 1550. -/
theorem C3_equal_weight_per_source_witness :
    List.lookup "X" (combined_avg
      [("source1", build_canonical_avg [⟨"X", 1500, false, ""⟩] [] []),
        ("source2", build_canonical_avg [⟨"X", 1600, false, ""⟩] [] [])]) = some 1550 :=
  C3_equal_weight_per_source.2 [] [] [⟨"X", 1500, false, ""⟩] [⟨"X", 1600, false, ""⟩] "X"
    (by simp [build_canonical_avg, addToGroup, mean, List.lookup, strip])
    (by simp [build_canonical_avg, addToGroup, mean, List.lookup, strip])

/-- C4: if a raw identifier of a canonical group is in the invalid set, the
group's canonical identifier is absent from every per-source aggregate map
and from the combined aggregate map. -/
theorem C4_invalid_propagation (cm : List (String × String)) (invalid_set : List String)
    (i c : String) (sources : List (String × List Entry))
    (hi : i ∈ invalid_set) (hcan : (List.lookup i cm).getD i = c) :
    (∀ src entries, (src, entries) ∈ sources →
      List.lookup c (build_canonical_avg entries cm (invalid_canon_of cm invalid_set))
        = none) ∧
    List.lookup c (combined_avg (sources.map (fun p =>
      (p.1, build_canonical_avg p.2 cm (invalid_canon_of cm invalid_set))))) = none := by
  have hcinv : c ∈ invalid_canon_of cm invalid_set := by
    unfold invalid_canon_of
    rw [← hcan]
    exact List.mem_map_of_mem _ hi
  have hkeys : ∀ entries : List Entry,
      ∀ p ∈ build_canonical_avg entries cm (invalid_canon_of cm invalid_set), p.1 ≠ c := by
    intro entries p hp hcon
    exact build_canonical_avg_keys entries cm _ p hp (hcon ▸ hcinv)
  constructor
  · intro src entries _
    exact lookup_eq_none_of_keys (hkeys entries)
  · unfold combined_avg
    dsimp only
    rw [List.foldl_map]
    have hfold : ∀ (srcs : List (String × List Entry)) (acc : List (String × List ℚ)),
        List.lookup c acc = none →
        List.lookup c (srcs.foldl (fun a p =>
          (build_canonical_avg p.2 cm (invalid_canon_of cm invalid_set)).foldl
            (fun a2 q => addToGroup a2 q.1 q.2) a) acc) = none := by
      intro srcs
      induction srcs with
      | nil => intro acc hacc; exact hacc
      | cons p rest ih =>
        intro acc hacc
        rw [List.foldl_cons]
        apply ih
        rw [lookup_collect c _ acc, hacc]
        show (if (build_canonical_avg p.2 cm (invalid_canon_of cm invalid_set)).filter
            (fun q => q.1 = c) = [] then none
          else some (((build_canonical_avg p.2 cm
            (invalid_canon_of cm invalid_set)).filter (fun q => q.1 = c)).map
            Prod.snd)) = none
        rw [if_pos]
        rw [List.filter_eq_nil_iff]
        intro q hq
        simp only [decide_eq_true_eq]
        exact hkeys p.2 q hq
    have hcollected := hfold sources [] rfl
    have hkeysc : ∀ p ∈ (sources.foldl (fun a p =>
        (build_canonical_avg p.2 cm (invalid_canon_of cm invalid_set)).foldl
          (fun a2 q => addToGroup a2 q.1 q.2) a) []), p.1 ≠ c := by
      intro p hp hcon
      have := List.lookup_eq_none_iff.1 hcollected p hp
      rw [hcon] at this
      simp at this
    rw [lookup_map_value c mean _]
    have : List.lookup c ((sources.foldl (fun a p =>
        (build_canonical_avg p.2 cm (invalid_canon_of cm invalid_set)).foldl
          (fun a2 q => addToGroup a2 q.1 q.2) a) []).filter (fun g => ¬g.2 = [])) = none := by
      apply lookup_eq_none_of_keys
      intro p hp
      exact hkeysc p (List.mem_of_mem_filter hp)
    rw [this]
    rfl

/-- C4 witness: `"B"` invalid, mapped to canonical `"A"`; `"A"` is absent
from the per-source aggregate and the combined aggregate even though `"A"`
itself has a valid scored record. -/
theorem C4_invalid_propagation_witness :
    (∀ src entries, (src, entries) ∈ [("source1", [Entry.mk "A" 1000 false ""])] →
      List.lookup "A" (build_canonical_avg entries [("A", "A"), ("B", "A")]
        (invalid_canon_of [("A", "A"), ("B", "A")] ["B"])) = none) ∧
    List.lookup "A" (combined_avg ([("source1", [Entry.mk "A" 1000 false ""])].map (fun p =>
      (p.1, build_canonical_avg p.2 [("A", "A"), ("B", "A")]
        (invalid_canon_of [("A", "A"), ("B", "A")] ["B"]))))) = none :=
  C4_invalid_propagation [("A", "A"), ("B", "A")] ["B"] "B" "A"
    [("source1", [Entry.mk "A" 1000 false ""])] (by decide) (by decide)

/-- C5: a record whose `removed_for` (`supersededBy`) field is set is a
merge vote and never contributes its score to any aggregate; in the
concrete scenario with identifiers `{"A","B"}`, edge `(B, A)` and records
`A@source1 = 1000`, `B@source1 = 1100` with `B` superseded by `A`, the
combined aggregate of canonical `"A"` is exactly `1000`. -/
theorem C5_merge_vote_excluded :
    (∀ (e : Entry) (pre post : List Entry) (cm : List (String × String))
        (inv : List String), e.removed_for ≠ "" →
      build_canonical_avg (pre ++ e :: post) cm inv =
        build_canonical_avg (pre ++ post) cm inv) ∧
    (build_canonical_map ["A", "B"] [("B", "A")] = some [("A", "A"), ("B", "A")] ∧
      List.lookup "A" (combined_avg [("source1",
        build_canonical_avg [⟨"A", 1000, false, ""⟩, ⟨"B", 1100, false, "A"⟩]
          [("A", "A"), ("B", "A")] [])]) = some 1000) := by
  refine ⟨?_, by decide, ?_⟩
  · intro e pre post cm inv hrem
    unfold build_canonical_avg
    dsimp only
    rw [List.foldl_append, List.foldl_append, List.foldl_cons]
    rw [bca_step_skip cm inv e hrem]
  · simp [combined_avg, build_canonical_avg, addToGroup, mean, List.lookup, strip]

/-- C5 witness: dropping the superseded record `B` from the entry list does
not change the aggregate. -/
theorem C5_merge_vote_excluded_witness :
    build_canonical_avg [Entry.mk "A" 1000 false "", Entry.mk "B" 1100 false "A"]
        [("A", "A"), ("B", "A")] [] =
      build_canonical_avg [Entry.mk "A" 1000 false ""] [("A", "A"), ("B", "A")] [] :=
  C5_merge_vote_excluded.1 (Entry.mk "B" 1100 false "A") [Entry.mk "A" 1000 false ""] []
    [("A", "A"), ("B", "A")] [] (by decide)

end CapableExp

namespace CapableExp

/-- C7: an auxiliary row whose canonical identifier has no aggregate score
never makes the joiner raise (the embedding of `build_plot_data` is a total
function); it is counted in `missing_total` — which equals exactly the
number of non-empty, non-invalid rows whose canonical id has no score —
and `missing_examples` never exceeds its cap of 10 entries. -/
theorem C7_missing_diagnostics (rows : List (String × Option Int))
    (cm : List (String × String)) (inv : List String) (avg : List (String × ℚ))
    (track : Bool) :
    ((build_plot_data rows cm inv avg track).2.2.2.missing_examples).length ≤ 10 ∧
    (build_plot_data rows cm inv avg track).2.2.2.missing_total =
      (rows.filter (fun row => row.1 ≠ "" ∧ (List.lookup row.1 cm).getD row.1 ∉ inv ∧
        List.lookup ((List.lookup row.1 cm).getD row.1) avg = none)).length := by
  unfold build_plot_data
  dsimp only
  constructor
  · exact foldl_plotStep_missing_le cm inv avg track rows initialPlotState
      (by simp [initialPlotState])
  · rw [foldl_plotStep_missing_total]
    simp [initialPlotState]

/-- C10: `track_missing` does not affect the joiner's primary outputs —
data points, baseline map, and all numeric counters including
`missing_total` are identical for `true` and `false`; the flag only
controls `missing_examples` and `missing_by_canonical`, which stay empty
when it is `false`. -/
theorem C10_track_missing_no_effect (rows : List (String × Option Int))
    (cm : List (String × String)) (inv : List String) (avg : List (String × ℚ)) :
    (build_plot_data rows cm inv avg true).1 = (build_plot_data rows cm inv avg false).1 ∧
    (build_plot_data rows cm inv avg true).2.1 =
      (build_plot_data rows cm inv avg false).2.1 ∧
    (build_plot_data rows cm inv avg true).2.2.1 =
      (build_plot_data rows cm inv avg false).2.2.1 ∧
    (build_plot_data rows cm inv avg true).2.2.2.numeric_rows =
      (build_plot_data rows cm inv avg false).2.2.2.numeric_rows ∧
    (build_plot_data rows cm inv avg true).2.2.2.numeric_peptides =
      (build_plot_data rows cm inv avg false).2.2.2.numeric_peptides ∧
    (build_plot_data rows cm inv avg true).2.2.2.numeric_with_elo =
      (build_plot_data rows cm inv avg false).2.2.2.numeric_with_elo ∧
    (build_plot_data rows cm inv avg true).2.2.2.missing_total =
      (build_plot_data rows cm inv avg false).2.2.2.missing_total ∧
    (build_plot_data rows cm inv avg false).2.2.2.missing_examples = [] ∧
    (build_plot_data rows cm inv avg false).2.2.2.missing_by_canonical = [] := by
  unfold build_plot_data
  dsimp only
  obtain ⟨g1, g2, g3, g4, g5, g6, g7⟩ :=
    foldl_plotStep_track cm inv avg rows initialPlotState initialPlotState
      rfl rfl rfl rfl rfl rfl rfl
  obtain ⟨hme, hmb⟩ := foldl_plotStep_false_missing cm inv avg rows initialPlotState
  exact ⟨g1, g2, g3, g4, g5, g6, g7, hme, hmb⟩

end CapableExp
